import Mathlib

/-!
# Rate-Monotonic scheduling simulator: shallow embedding

This file embeds the program in `ece_652_final.py` (a discrete-time
Rate-Monotonic schedulability simulator) into Lean and proves properties
of it.  Python integers are modelled by `Nat`/`Int` (they are unbounded),
real-valued task parameters by `ℚ`, and exceptions by `Except`.
-/

namespace RM

/-- Python `round` (banker's rounding, ties to even) on an exact rational. -/
def pyRound (q : ℚ) : ℤ :=
  let f : ℤ := ⌊q⌋
  let r : ℚ := q - f
  if r < 1/2 then f
  else if (1:ℚ)/2 < r then f + 1
  else if f % 2 = 0 then f else f + 1

/-- `Task` from the source: `id`, and the three scaled tick values
`e`, `p`, `d` (positive integers once construction succeeds). -/
structure Task where
  id : Nat
  e : Nat
  p : Nat
  d : Nat
deriving DecidableEq, Repr

/-- `Task.__init__`: scale the real-valued inputs, round, and reject
non-positive results (`raise ValueError(...)` in the source). -/
def Task.make (task_id : Nat) (exec_time period deadline : ℚ) (scale : ℤ) :
    Except String Task :=
  let e : ℤ := pyRound (exec_time * scale)
  let p : ℤ := pyRound (period * scale)
  let d : ℤ := pyRound (deadline * scale)
  if e ≤ 0 ∨ p ≤ 0 ∨ d ≤ 0 then
    .error "Execution time, period, and deadline must be positive numbers."
  else
    .ok ⟨task_id, e.toNat, p.toNat, d.toNat⟩

/-- `Task.__lt__`: sorting by period then task id implements RM priority. -/
def Task.lt (a b : Task) : Bool :=
  a.p < b.p || (a.p == b.p && a.id < b.id)

/-- `Job`: one released instance of a task.  `remaining` starts at `task.e`
and `deadline` is `release_time + task.d`. -/
structure Job where
  task : Task
  remaining : Nat
  deadline : Nat
deriving DecidableEq, Repr

/-- `Job.__init__`. -/
def Job.make (t : Task) (release_time : Nat) : Job :=
  ⟨t, t.e, release_time + t.d⟩

/-- `_lcm` from the source: `a * b // math.gcd(a, b)`. -/
def _lcm (a b : Nat) : Nat := a * b / Nat.gcd a b

/-- `_hyper_period` from the source: left fold of `_lcm` starting at the
head.  The Python code indexes `periods[0]` and so raises on an empty
list; the `[]` case below is junk that `simulate_rm` never reaches
(it is only invoked on non-empty task lists). -/
def _hyper_period : List Nat → Nat
  | [] => 0
  | p :: ps => ps.foldl _lcm p

/-- The RM selection key `(j.task.p, j.task.id)` compared lexicographically
(Python tuple comparison). -/
def keyLt (a b : Job) : Bool :=
  a.task.p < b.task.p || (a.task.p == b.task.p && a.task.id < b.task.id)

/-- One comparison step of Python `min`: the newcomer `x` replaces the best
so far only when its key is strictly smaller, so ties keep the earlier
element. -/
def pick (b x : Job) : Job :=
  if keyLt x b then x else b

/-- Python `min(ready, key=lambda j: (j.task.p, j.task.id))`: scan left to
right keeping the earliest element with the smallest key. -/
def pyMin : List Job → Option Job
  | [] => none
  | j :: js => some (js.foldl pick j)

/-- The simulator's mutable state: the `ready` list, the job executed in the
previous tick (`current`), the integer clock, and the preemption counters. -/
structure SimState where
  ready : List Job
  current : Option Job
  time : Nat
  preempts : List Int
deriving DecidableEq, Repr

/-- `preempts[i] += 1` (the id is always in range for valid workloads). -/
def bump (l : List Int) (i : Nat) : List Int :=
  l.set i (l.getD i 0 + 1)

/-- Release phase of one tick: append a new job for every task whose period
divides the current time, in task-list order. -/
def releases (tasks : List Task) (time : Nat) : List Job :=
  (tasks.filter (fun t => time % t.p == 0)).map (fun t => Job.make t time)

/-- The ready list right after the release phase of the tick at `s.time`. -/
def afterRelease (tasks : List Task) (s : SimState) : List Job :=
  s.ready ++ releases tasks s.time

/-- Deadline check of one tick: some ready job has passed its deadline while
work remains (`time >= job.deadline and job.remaining > 0`). -/
def missFound (time : Nat) (ready : List Job) : Bool :=
  ready.any (fun job => decide (job.deadline ≤ time) && decide (0 < job.remaining))

/-- Steps 4 and 5 of the tick body: preemption accounting, execution of the
chosen job for one time unit, and the clock advance. -/
def execChosen (s : SimState) (ready : List Job) (chosen : Job) (hyper : Nat) :
    SimState :=
  let preempts :=
    match s.current with
    | none => s.preempts
    | some cur =>
        if cur != chosen && decide (s.time < hyper) then
          bump s.preempts cur.task.id
        else s.preempts
  let c2 : Job := ⟨chosen.task, chosen.remaining - 1, chosen.deadline⟩
  if c2.remaining == 0 then
    ⟨ready.erase chosen, none, s.time + 1, preempts⟩
  else
    ⟨ready.replace chosen c2, some c2, s.time + 1, preempts⟩

/-- Outcome of one iteration of the `while` loop: either a `return`/`break`
with the final answer, or the state for the next iteration. -/
inductive TickResult where
  | ret : Bool → List Int → TickResult
  | next : SimState → TickResult
deriving DecidableEq, Repr

/-- One iteration of the `while time < horizon` loop of `simulate_rm`:
release, deadline check (`return False` on a miss), selection (idle ticks
only advance the clock), preemption accounting, execution, and the early
exit (`break`, reported as `return True`) once `time >= hyper` finds an
empty ready list. -/
def simTick (tasks : List Task) (hyper : Nat) (s : SimState) : TickResult :=
  let ready := afterRelease tasks s
  if missFound s.time ready then .ret false s.preempts
  else
    match pyMin ready with
    | none => .next ⟨ready, s.current, s.time + 1, s.preempts⟩
    | some chosen =>
        let s2 := execChosen s ready chosen hyper
        if decide (hyper ≤ s2.time) && s2.ready.isEmpty then .ret true s2.preempts
        else .next s2

/-- The `while time < horizon` loop, driven by fuel.  `simulate_rm` passes
`horizon` as fuel; since every iteration advances `time` by exactly one,
the loop guard `horizon ≤ time` always fires before the fuel runs out, and
the fuel-exhaustion case returns the same `(True, preempts)` the guard
would. -/
def simLoop (tasks : List Task) (hyper horizon : Nat) :
    Nat → SimState → Bool × List Int
  | 0, s => (true, s.preempts)
  | fuel + 1, s =>
      if horizon ≤ s.time then (true, s.preempts)
      else
        match simTick tasks hyper s with
        | .ret f p => (f, p)
        | .next s2 => simLoop tasks hyper horizon fuel s2

/-- The initial simulation state: empty ready list, no current job, clock
at zero, one zero counter per task. -/
def initState (n : Nat) : SimState :=
  ⟨[], none, 0, List.replicate n 0⟩

/-- `simulate_rm` from the source.  On an empty task list the Python code
raises (`periods[0]` IndexError inside `_hyper_period`), modelled by
`none`. -/
def simulate_rm (tasks : List Task) : Option (Bool × List Int) :=
  match tasks with
  | [] => none
  | t :: ts =>
      let hyper := _hyper_period ((t :: ts).map (fun tk => tk.p))
      let horizon := hyper + (ts.map (fun tk => tk.d)).foldl max t.d
      some (simLoop (t :: ts) hyper horizon horizon (initState (t :: ts).length))

/-- The local variable `hyper` of `simulate_rm`. -/
def hyperOf (tasks : List Task) : Nat :=
  _hyper_period (tasks.map (fun tk => tk.p))

/-- The maximal relative deadline, `max(t.d for t in tasks)`. -/
def maxDeadline : List Task → Nat
  | [] => 0
  | t :: ts => (ts.map (fun tk => tk.d)).foldl max t.d

/-- The local variable `horizon` of `simulate_rm`. -/
def horizonOf (tasks : List Task) : Nat :=
  hyperOf tasks + maxDeadline tasks

/-- One tick of the schedule without the deadline-miss return and without
the early exit: the underlying total transition of the simulator state.
The actual loop follows this transition until it returns. -/
def pureTick (tasks : List Task) (hyper : Nat) (s : SimState) : SimState :=
  let ready := afterRelease tasks s
  match pyMin ready with
  | none => ⟨ready, s.current, s.time + 1, s.preempts⟩
  | some chosen => execChosen s ready chosen hyper

/-- The state at the start of tick `k` of the never-stopping schedule. -/
def pureState (tasks : List Task) (hyper : Nat) (k : Nat) : SimState :=
  (pureTick tasks hyper)^[k] (initState tasks.length)

/-- Whether the deadline check fires at tick `k` of the schedule: some job
ready after the releases of tick `k` has passed its deadline with work
remaining. -/
def missAt (tasks : List Task) (hyper : Nat) (k : Nat) : Bool :=
  missFound (pureState tasks hyper k).time
    (afterRelease tasks (pureState tasks hyper k))

/-- One iteration of the loop without the early exit (`break`) — used to
compare the real loop against a run to the full horizon. -/
def simTickFull (tasks : List Task) (hyper : Nat) (s : SimState) : TickResult :=
  let ready := afterRelease tasks s
  if missFound s.time ready then .ret false s.preempts
  else
    match pyMin ready with
    | none => .next ⟨ready, s.current, s.time + 1, s.preempts⟩
    | some chosen => .next (execChosen s ready chosen hyper)

/-- The loop without the early exit. -/
def simLoopFull (tasks : List Task) (hyper horizon : Nat) :
    Nat → SimState → Bool × List Int
  | 0, s => (true, s.preempts)
  | fuel + 1, s =>
      if horizon ≤ s.time then (true, s.preempts)
      else
        match simTickFull tasks hyper s with
        | .ret f p => (f, p)
        | .next s2 => simLoopFull tasks hyper horizon fuel s2

/-- `simulate_rm` with the early exit removed: runs to the full horizon. -/
def simulate_full (tasks : List Task) : Option (Bool × List Int) :=
  match tasks with
  | [] => none
  | t :: ts =>
      some (simLoopFull (t :: ts) (hyperOf (t :: ts)) (horizonOf (t :: ts))
        (horizonOf (t :: ts)) (initState (t :: ts).length))

/-- A well-formed workload as produced by `load_workload`: non-empty, ids
equal to input positions, and all tick values strictly positive (the
`Task.make` invariant). -/
def ValidTasks (tasks : List Task) : Prop :=
  tasks ≠ [] ∧
  (∀ i : Fin tasks.length, (tasks.get i).id = i.val) ∧
  (∀ t ∈ tasks, 1 ≤ t.e ∧ 1 ≤ t.p ∧ 1 ≤ t.d)

instance : DecidablePred ValidTasks := fun tasks => by
  unfold ValidTasks; infer_instance

/-- The task-construction loop of `load_workload`: the record at index
`idx` becomes `Task(idx, e, p, d)` with the default `scale = 1000`; a
construction error propagates (fail-fast).  The textual parsing of the
input file is I/O and is modelled as already done, yielding the numeric
records. -/
def buildTasks : Nat → List (ℚ × ℚ × ℚ) → Except String (List Task)
  | _, [] => .ok []
  | idx, r :: rest =>
      match Task.make idx r.1 r.2.1 r.2.2 1000 with
      | .error msg => .error msg
      | .ok t =>
          match buildTasks (idx + 1) rest with
          | .error msg => .error msg
          | .ok ts => .ok (t :: ts)

/-- `load_workload` minus the file handling: build the tasks and reject an
empty workload (`if not tasks: raise ValueError(...)`). -/
def load_workload (records : List (ℚ × ℚ × ℚ)) : Except String (List Task) :=
  match buildTasks 0 records with
  | .error msg => .error msg
  | .ok tasks =>
      if tasks.isEmpty then .error "Input file does not define any tasks."
      else .ok tasks

/-- The `main` pipeline after I/O: load the workload, then simulate.  The
`none` result of `simulate_rm` (empty task list) is surfaced as an
`IndexError`, which is what the Python code would raise there. -/
def runMain (records : List (ℚ × ℚ × ℚ)) : Except String (Bool × List Int) :=
  match load_workload records with
  | .error msg => .error msg
  | .ok tasks =>
      match simulate_rm tasks with
      | some r => .ok r
      | none => .error "IndexError"

/-! ## Helper lemmas about the RM selection order and Python `min` -/

theorem keyLt_iff (a b : Job) :
    keyLt a b = true ↔
      (a.task.p < b.task.p ∨ (a.task.p = b.task.p ∧ a.task.id < b.task.id)) := by
  simp only [keyLt, Bool.or_eq_true, Bool.and_eq_true, decide_eq_true_eq, beq_iff_eq]

theorem keyLt_false_iff (a b : Job) :
    keyLt a b = false ↔
      ¬ (a.task.p < b.task.p ∨ (a.task.p = b.task.p ∧ a.task.id < b.task.id)) := by
  rw [← keyLt_iff]
  cases keyLt a b <;> simp

theorem keyLt_irrefl (a : Job) : keyLt a a = false := by
  rw [keyLt_false_iff]; omega

theorem keyLt_asymm {a b : Job} (h : keyLt a b = true) : keyLt b a = false := by
  rw [keyLt_iff] at h
  rw [keyLt_false_iff]
  omega

theorem keyLt_trans {a b c : Job} (h1 : keyLt a b = true) (h2 : keyLt b c = true) :
    keyLt a c = true := by
  rw [keyLt_iff] at h1 h2 ⊢
  omega

/-- From `¬(b < a)` and `b < c` conclude `a < c` (keys are totally
ordered). -/
theorem keyLt_of_not_lt_of_lt {a b c : Job} (h1 : keyLt b a = false)
    (h2 : keyLt b c = true) : keyLt a c = true := by
  rw [keyLt_false_iff] at h1
  rw [keyLt_iff] at h2 ⊢
  omega

/-- From `a < b` and `¬(c < b)` conclude `a < c`. -/
theorem keyLt_of_lt_of_not_lt {a b c : Job} (h1 : keyLt a b = true)
    (h2 : keyLt c b = false) : keyLt a c = true := by
  rw [keyLt_iff] at h1 ⊢
  rw [keyLt_false_iff] at h2
  omega

/-- Two jobs neither of which precedes the other have equal keys. -/
theorem key_eq_of_not_lt {a b : Job} (h1 : keyLt a b = false)
    (h2 : keyLt b a = false) : a.task.p = b.task.p ∧ a.task.id = b.task.id := by
  rw [keyLt_false_iff] at h1 h2
  omega

theorem not_lt_pick_left (b y : Job) : keyLt b (pick b y) = false := by
  unfold pick
  split
  · next hk => exact keyLt_asymm hk
  · next => exact keyLt_irrefl b

theorem not_lt_pick_right (b y : Job) : keyLt y (pick b y) = false := by
  unfold pick
  split
  · next => exact keyLt_irrefl y
  · next hk => exact Bool.not_eq_true _ |>.mp hk

theorem foldl_pick_mem : ∀ (js : List Job) (b : Job), js.foldl pick b ∈ b :: js := by
  intro js
  induction js with
  | nil => intro b; simp
  | cons y rest ih =>
      intro b
      simp only [List.foldl_cons]
      have hp : pick b y = b ∨ pick b y = y := by
        unfold pick; split
        · exact Or.inr rfl
        · exact Or.inl rfl
      rcases List.mem_cons.mp (ih (pick b y)) with h | h
      · rcases hp with h2 | h2 <;> rw [h, h2] <;> simp
      · simp [h]

/-- The running best only improves: anything not below the seed is not
below the fold result. -/
theorem foldl_pick_not_lt_mono : ∀ (js : List Job) (b x : Job),
    keyLt x b = false → keyLt x (js.foldl pick b) = false := by
  intro js
  induction js with
  | nil => intro b x h; simpa using h
  | cons y rest ih =>
      intro b x h
      simp only [List.foldl_cons]
      apply ih
      unfold pick
      split
      · next hk =>
          cases hxy : keyLt x y
          · rfl
          · exact absurd (keyLt_trans hxy hk) (by simp [h])
      · next => exact h

/-- No element of the scanned list is strictly below the fold result. -/
theorem foldl_pick_min : ∀ (js : List Job) (b x : Job),
    x ∈ b :: js → keyLt x (js.foldl pick b) = false := by
  intro js
  induction js with
  | nil =>
      intro b x hx
      have h : x = b := by simpa using hx
      simp [h, keyLt_irrefl]
  | cons y rest ih =>
      intro b x hx
      simp only [List.foldl_cons]
      rcases List.mem_cons.mp hx with h | h
      · subst h
        exact foldl_pick_not_lt_mono rest (pick x y) x (not_lt_pick_left x y)
      · rcases List.mem_cons.mp h with h2 | h2
        · subst h2
          exact foldl_pick_not_lt_mono rest (pick b x) x (not_lt_pick_right b x)
        · exact ih (pick b y) x (List.mem_cons.mpr (Or.inr h2))

theorem pyMin_mem {l : List Job} {c : Job} (h : pyMin l = some c) : c ∈ l := by
  cases l with
  | nil => simp [pyMin] at h
  | cons j js =>
      simp [pyMin] at h
      subst h
      exact foldl_pick_mem js j

theorem pyMin_min {l : List Job} {c : Job} (h : pyMin l = some c) :
    ∀ x ∈ l, keyLt x c = false := by
  cases l with
  | nil => simp [pyMin] at h
  | cons j js =>
      simp [pyMin] at h
      subst h
      intro x hx
      exact foldl_pick_min js j x hx

theorem pyMin_eq_none_iff {l : List Job} : pyMin l = none ↔ l = [] := by
  cases l <;> simp [pyMin]

/-- `pyMin` returns the first element attaining the minimal key: the list
splits at the returned job and everything before it is strictly greater. -/
theorem foldl_pick_split : ∀ (js : List Job) (b : Job),
    ∃ l1 l2, b :: js = l1 ++ (js.foldl pick b) :: l2 ∧
      ∀ x ∈ l1, keyLt (js.foldl pick b) x = true := by
  intro js
  induction js with
  | nil =>
      intro b
      exact ⟨[], [], rfl, by simp⟩
  | cons y rest ih =>
      intro b
      simp only [List.foldl_cons]
      by_cases hk : keyLt y b = true
      · have hpick : pick b y = y := by simp [pick, hk]
        rw [hpick]
        obtain ⟨l1, l2, heq, hgt⟩ := ih y
        refine ⟨b :: l1, l2, by rw [List.cons_append, ← heq], ?_⟩
        intro x hx
        rcases List.mem_cons.mp hx with h | h
        · subst h
          have hy : keyLt y (rest.foldl pick y) = false :=
            foldl_pick_min rest y y (List.mem_cons.mpr (Or.inl rfl))
          exact keyLt_of_not_lt_of_lt hy hk
        · exact hgt x h
      · have hkf : keyLt y b = false := Bool.not_eq_true _ |>.mp hk
        have hpick : pick b y = b := by simp [pick, hkf]
        rw [hpick]
        obtain ⟨l1, l2, heq, hgt⟩ := ih b
        cases l1 with
        | nil =>
            simp only [List.nil_append] at heq
            have hb : rest.foldl pick b = b := (List.cons.injEq _ _ _ _).mp heq |>.1.symm
            have hrest : l2 = rest := (List.cons.injEq _ _ _ _).mp heq |>.2.symm
            exact ⟨[], y :: rest, by rw [hb]; rfl, by simp⟩
        | cons a l1t =>
            simp only [List.cons_append] at heq
            have ha : a = b := ((List.cons.injEq _ _ _ _).mp heq).1.symm
            have hrest : rest = l1t ++ (rest.foldl pick b) :: l2 :=
              ((List.cons.injEq _ _ _ _).mp heq).2
            have hcb : keyLt (rest.foldl pick b) b = true := by
              have := hgt a (List.mem_cons.mpr (Or.inl rfl))
              rwa [ha] at this
            refine ⟨b :: y :: l1t, l2, ?_, ?_⟩
            · rw [List.cons_append, List.cons_append, ← hrest]
            · intro x hx
              rcases List.mem_cons.mp hx with h | h
              · subst h; exact hcb
              · rcases List.mem_cons.mp h with h2 | h2
                · subst h2
                  exact keyLt_of_lt_of_not_lt hcb hkf
                · exact hgt x (List.mem_cons.mpr (Or.inr h2))

theorem pyMin_split {l : List Job} {c : Job} (h : pyMin l = some c) :
    ∃ l1 l2, l = l1 ++ c :: l2 ∧ ∀ x ∈ l1, keyLt c x = true := by
  cases l with
  | nil => simp [pyMin] at h
  | cons j js =>
      simp [pyMin] at h
      subst h
      exact foldl_pick_split js j

/-- A fold whose seed already beats every scanned element keeps the seed. -/
theorem foldl_pick_const : ∀ (js : List Job) (b : Job),
    (∀ x ∈ js, keyLt x b = false) → js.foldl pick b = b := by
  intro js
  induction js with
  | nil => intro b _; rfl
  | cons y rest ih =>
      intro b h
      simp only [List.foldl_cons]
      have hy : keyLt y b = false := h y (List.mem_cons.mpr (Or.inl rfl))
      have hpick : pick b y = b := by simp [pick, hy]
      rw [hpick]
      exact ih b (fun x hx => h x (List.mem_cons.mpr (Or.inr hx)))

/-- Converse of `pyMin_split`: if the part before `c` is strictly greater
and the part after is not smaller, `pyMin` returns `c`. -/
theorem pyMin_of_split (l1 l2 : List Job) (c : Job)
    (h1 : ∀ x ∈ l1, keyLt c x = true) (h2 : ∀ x ∈ l2, keyLt x c = false) :
    pyMin (l1 ++ c :: l2) = some c := by
  cases l1 with
  | nil =>
      simp only [List.nil_append, pyMin, Option.some.injEq]
      exact foldl_pick_const l2 c h2
  | cons a l1t =>
      simp only [List.cons_append, pyMin, Option.some.injEq]
      rw [List.foldl_append, List.foldl_cons]
      have hb1 : l1t.foldl pick a ∈ a :: l1t := foldl_pick_mem l1t a
      have hcb1 : keyLt c (l1t.foldl pick a) = true := by
        rcases List.mem_cons.mp hb1 with h | h
        · rw [h]; exact h1 a (List.mem_cons.mpr (Or.inl rfl))
        · exact h1 _ (List.mem_cons.mpr (Or.inr h))
      have hpick : pick (l1t.foldl pick a) c = c := by
        simp [pick, hcb1]
      rw [hpick]
      exact foldl_pick_const l2 c h2

/-- When one job strictly beats every other ready job, `pyMin` returns it
no matter where it sits in the list. -/
theorem pyMin_of_unique {l : List Job} {c : Job} (hc : c ∈ l)
    (h : ∀ x ∈ l, x ≠ c → keyLt c x = true) : pyMin l = some c := by
  cases l with
  | nil => simp at hc
  | cons j js =>
      simp only [pyMin, Option.some.injEq]
      by_contra hne
      have hmem : js.foldl pick j ∈ j :: js := foldl_pick_mem js j
      have h1 : keyLt c (js.foldl pick j) = true := h _ hmem hne
      have h2 : keyLt c (js.foldl pick j) = false := foldl_pick_min js j c hc
      rw [h1] at h2
      exact Bool.noConfusion h2

/-! ## Helper lemmas about the tick body and the loop -/

/-- The preemption counters are untouched when no job was executing. -/
theorem execChosen_preempts_none (s : SimState) (ready : List Job)
    (chosen : Job) (hyper : Nat) (h : s.current = none) :
    (execChosen s ready chosen hyper).preempts = s.preempts := by
  unfold execChosen
  rw [h]
  dsimp only
  split <;> rfl

/-- The preemption counters computed by one execution step when a job was
executing in the previous tick. -/
theorem execChosen_preempts_some (s : SimState) (ready : List Job)
    (chosen : Job) (hyper : Nat) (cur : Job) (h : s.current = some cur) :
    (execChosen s ready chosen hyper).preempts =
      if cur != chosen && decide (s.time < hyper) then
        bump s.preempts cur.task.id
      else s.preempts := by
  unfold execChosen
  rw [h]
  dsimp only
  split <;> rfl

theorem execChosen_time (s : SimState) (ready : List Job) (chosen : Job)
    (hyper : Nat) : (execChosen s ready chosen hyper).time = s.time + 1 := by
  unfold execChosen
  dsimp only
  split <;> rfl

/-- A completing job clears `current`. -/
theorem execChosen_current_of_done (s : SimState) (ready : List Job)
    (chosen : Job) (hyper : Nat) (h : chosen.remaining = 1) :
    (execChosen s ready chosen hyper).current = none := by
  unfold execChosen
  dsimp only
  rw [if_pos (by simp [h])]

/-- `pyRound` is the identity on integers. -/
theorem pyRound_intCast (n : ℤ) : pyRound (n : ℚ) = n := by
  unfold pyRound
  dsimp only
  rw [Int.floor_intCast, sub_self]
  rw [if_pos (by norm_num)]

theorem pyRound_eval_int {q : ℚ} {n : ℤ} (h : q = (n : ℚ)) : pyRound q = n := by
  rw [h]
  exact pyRound_intCast n

/-- `pyRound` on a value whose fractional part is below one half rounds
down to the floor. -/
theorem pyRound_eval_floor {q : ℚ} {f : ℤ} (hf : ⌊q⌋ = f)
    (hlt : q - (f : ℚ) < 1/2) : pyRound q = f := by
  unfold pyRound
  rw [hf, if_pos hlt]

/-- Evaluate `Task.make` once the three roundings are known and positive. -/
theorem Task.make_eval (tid : Nat) (e p d : ℚ) (s ne np nd : ℤ)
    (he : pyRound (e * s) = ne) (hp : pyRound (p * s) = np)
    (hd : pyRound (d * s) = nd) (hpos : 0 < ne ∧ 0 < np ∧ 0 < nd) :
    Task.make tid e p d s = .ok ⟨tid, ne.toNat, np.toNat, nd.toNat⟩ := by
  unfold Task.make
  rw [he, hp, hd, if_neg (by omega)]

theorem simTick_next_time {tasks : List Task} {hyper : Nat} {s s2 : SimState}
    (h : simTick tasks hyper s = TickResult.next s2) : s2.time = s.time + 1 := by
  unfold simTick at h
  cases hm : missFound s.time (afterRelease tasks s) with
  | true => rw [if_pos hm] at h; cases h
  | false =>
      rw [if_neg (by simp [hm])] at h
      cases hp : pyMin (afterRelease tasks s) with
      | none => rw [hp] at h; cases h; rfl
      | some chosen =>
          rw [hp] at h
          dsimp only at h
          by_cases hb : (decide (hyper ≤ (execChosen s (afterRelease tasks s) chosen hyper).time) &&
              (execChosen s (afterRelease tasks s) chosen hyper).ready.isEmpty) = true
          · rw [if_pos hb] at h; cases h
          · rw [if_neg hb] at h
            cases h
            exact execChosen_time s (afterRelease tasks s) chosen hyper

/-- Fuel beyond `horizon - time` is irrelevant: the loop guard always fires
first. -/
theorem simLoop_fuel_indep : ∀ (fuel1 fuel2 : Nat) (tasks : List Task)
    (hyper horizon : Nat) (s : SimState),
    horizon - s.time ≤ fuel1 → horizon - s.time ≤ fuel2 →
    simLoop tasks hyper horizon fuel1 s = simLoop tasks hyper horizon fuel2 s := by
  intro fuel1
  induction fuel1 with
  | zero =>
      intro fuel2 tasks hyper horizon s h1 h2
      have hz : horizon ≤ s.time := by omega
      cases fuel2 with
      | zero => rfl
      | succ g => simp [simLoop, if_pos hz]
  | succ f ih =>
      intro fuel2 tasks hyper horizon s h1 h2
      by_cases hz : horizon ≤ s.time
      · cases fuel2 with
        | zero => simp [simLoop, if_pos hz]
        | succ g => simp [simLoop, if_pos hz]
      · cases fuel2 with
        | zero => omega
        | succ g =>
            simp only [simLoop, if_neg hz]
            cases ht : simTick tasks hyper s with
            | ret fb pb => rfl
            | next s2 =>
                have hts := simTick_next_time ht
                exact ih g tasks hyper horizon s2 (by omega) (by omega)

/-! ## Helper lemmas for the preemption-counter invariant -/

theorem Task.lt_iff (a b : Task) :
    Task.lt a b = true ↔ (a.p < b.p ∨ (a.p = b.p ∧ a.id < b.id)) := by
  simp only [Task.lt, Bool.or_eq_true, Bool.and_eq_true, decide_eq_true_eq,
    beq_iff_eq]

theorem keyLt_eq_taskLt (a b : Job) : keyLt a b = Task.lt a.task b.task := rfl

/-- A job of the unique RM-minimal task is never strictly beaten. -/
theorem not_keyLt_min {tasks : List Task} {m : Task}
    (hmin : ∀ t ∈ tasks, t ≠ m → Task.lt m t = true)
    {x c : Job} (hx : x.task ∈ tasks) (hc : c.task = m) :
    keyLt x c = false := by
  rw [keyLt_false_iff, hc]
  by_cases he : x.task = m
  · rw [he]; omega
  · have h := (Task.lt_iff m x.task).mp (hmin x.task hx he)
    omega

theorem getD_nonneg : ∀ (l : List Int), (∀ x ∈ l, 0 ≤ x) → ∀ i, 0 ≤ l.getD i 0 := by
  intro l
  induction l with
  | nil => intro _ i; simp [List.getD]
  | cons a l ih =>
      intro h i
      cases i with
      | zero => exact h a (List.mem_cons.mpr (Or.inl rfl))
      | succ j =>
          rw [List.getD_cons_succ]
          exact ih (fun x hx => h x (List.mem_cons.mpr (Or.inr hx))) j

theorem bump_cons_succ (a : Int) (l : List Int) (i : Nat) :
    bump (a :: l) (i + 1) = a :: bump l i := by
  simp [bump, List.getD_cons_succ]

theorem bump_nonneg : ∀ (l : List Int), (∀ x ∈ l, 0 ≤ x) → ∀ i,
    ∀ x ∈ bump l i, 0 ≤ x := by
  intro l
  induction l with
  | nil => intro _ i x hx; simp [bump] at hx
  | cons a l ih =>
      intro h i x hx
      cases i with
      | zero =>
          simp only [bump, List.getD_cons_zero, List.set] at hx
          rcases List.mem_cons.mp hx with h2 | h2
          · subst h2
            have := h a (List.mem_cons.mpr (Or.inl rfl))
            omega
          · exact h x (List.mem_cons.mpr (Or.inr h2))
      | succ j =>
          rw [bump_cons_succ] at hx
          rcases List.mem_cons.mp hx with h2 | h2
          · subst h2; exact h x (List.mem_cons.mpr (Or.inl rfl))
          · exact ih (fun y hy => h y (List.mem_cons.mpr (Or.inr hy))) j x h2

theorem bump_getD_ne : ∀ (l : List Int) (i j : Nat), i ≠ j →
    (bump l i).getD j 0 = l.getD j 0 := by
  intro l
  induction l with
  | nil => intro i j _; simp [bump]
  | cons a l ih =>
      intro i j hne
      cases i with
      | zero =>
          cases j with
          | zero => exact absurd rfl hne
          | succ k =>
              simp only [bump, List.getD_cons_zero, List.set]
              rw [List.getD_cons_succ, List.getD_cons_succ]
      | succ m =>
          rw [bump_cons_succ]
          cases j with
          | zero => rw [List.getD_cons_zero, List.getD_cons_zero]
          | succ k =>
              rw [List.getD_cons_succ, List.getD_cons_succ]
              exact ih m k (fun h => hne (by rw [h]))

theorem replicate_getD_zero : ∀ (n i : Nat),
    (List.replicate n (0 : Int)).getD i 0 = 0 := by
  intro n
  induction n with
  | zero => intro i; simp [List.getD]
  | succ k ih =>
      intro i
      rw [List.replicate_succ]
      cases i with
      | zero => rfl
      | succ j => rw [List.getD_cons_succ]; exact ih j

theorem mem_replace : ∀ (l : List Job) (a b x : Job),
    x ∈ l.replace a b → x ∈ l ∨ x = b := by
  intro l
  induction l with
  | nil => intro a b x hx; simp [List.replace] at hx
  | cons y l ih =>
      intro a b x hx
      simp only [List.replace_cons] at hx
      cases ha : a == y with
      | true =>
          rw [ha] at hx
          dsimp only at hx
          rcases List.mem_cons.mp hx with h | h
          · exact Or.inr h
          · exact Or.inl (List.mem_cons.mpr (Or.inr h))
      | false =>
          rw [ha] at hx
          dsimp only at hx
          rcases List.mem_cons.mp hx with h | h
          · exact Or.inl (List.mem_cons.mpr (Or.inl h))
          · rcases ih a b x h with h2 | h2
            · exact Or.inl (List.mem_cons.mpr (Or.inr h2))
            · exact Or.inr h2

theorem replace_append_of_not_mem : ∀ (l1 : List Job) (a b : Job) (l2 : List Job),
    a ∉ l1 → (l1 ++ a :: l2).replace a b = l1 ++ b :: l2 := by
  intro l1
  induction l1 with
  | nil =>
      intro a b l2 _
      rw [List.nil_append, List.replace_cons, beq_self_eq_true]
      rfl
  | cons x l1 ih =>
      intro a b l2 hna
      have hax : (a == x) = false := by
        rw [beq_eq_false_iff_ne]
        intro he
        exact hna (List.mem_cons.mpr (Or.inl he))
      rw [List.cons_append, List.replace_cons, hax]
      dsimp only
      rw [ih a b l2 (fun h => hna (List.mem_cons.mpr (Or.inr h))), List.cons_append]

/-- The invariant behind C6: ready jobs belong to declared tasks, the job
executed last tick (if any) sits in the ready list with everything before
it strictly greater, all counters are non-negative, and the counter of the
RM-minimal task `m` is zero. -/
def C6Inv (tasks : List Task) (m : Task) (s : SimState) : Prop :=
  (∀ j ∈ s.ready, j.task ∈ tasks) ∧
  (s.current = none ∨ ∃ c l1 l2, s.current = some c ∧ s.ready = l1 ++ c :: l2 ∧
    ∀ x ∈ l1, keyLt c x = true) ∧
  (∀ x ∈ s.preempts, 0 ≤ x) ∧
  s.preempts.getD m.id 0 = 0

theorem execChosen_done (s : SimState) (ready : List Job) (chosen : Job)
    (hyper : Nat) (h : chosen.remaining - 1 = 0) :
    (execChosen s ready chosen hyper).ready = ready.erase chosen ∧
    (execChosen s ready chosen hyper).current = none := by
  unfold execChosen
  dsimp only
  rw [if_pos (by simp [h])]
  exact ⟨rfl, rfl⟩

theorem execChosen_notdone (s : SimState) (ready : List Job) (chosen : Job)
    (hyper : Nat) (h : chosen.remaining - 1 ≠ 0) :
    (execChosen s ready chosen hyper).ready =
      ready.replace chosen ⟨chosen.task, chosen.remaining - 1, chosen.deadline⟩ ∧
    (execChosen s ready chosen hyper).current =
      some ⟨chosen.task, chosen.remaining - 1, chosen.deadline⟩ := by
  unfold execChosen
  dsimp only
  rw [if_neg (by simp [h])]
  exact ⟨rfl, rfl⟩

theorem releases_task_mem {tasks : List Task} {time : Nat} {j : Job}
    (h : j ∈ releases tasks time) : j.task ∈ tasks := by
  obtain ⟨t, ht, rfl⟩ := List.mem_map.mp h
  exact List.mem_of_mem_filter ht

/-- One loop iteration of C6: a returned counter list satisfies the two
counter facts, and a continuing state keeps the whole invariant. -/
theorem simTick_C6 (tasks : List Task) (m : Task) (hyper : Nat) (s : SimState)
    (hm : m ∈ tasks)
    (huniq : ∀ a ∈ tasks, ∀ b ∈ tasks, a.id = b.id → a = b)
    (hmin : ∀ t ∈ tasks, t ≠ m → Task.lt m t = true)
    (hinv : C6Inv tasks m s) :
    (∀ f p, simTick tasks hyper s = .ret f p →
      (∀ x ∈ p, 0 ≤ x) ∧ p.getD m.id 0 = 0) ∧
    (∀ s2, simTick tasks hyper s = .next s2 → C6Inv tasks m s2) := by
  obtain ⟨hT, hC, hP, hM⟩ := hinv
  have hTar : ∀ j ∈ afterRelease tasks s, j.task ∈ tasks := by
    intro j hj
    rcases List.mem_append.mp hj with h | h
    · exact hT j h
    · exact releases_task_mem h
  -- Facts about the preemption counters produced by the execution phase.
  have hPstep : ∀ chosen, pyMin (afterRelease tasks s) = some chosen →
      (∀ x ∈ (execChosen s (afterRelease tasks s) chosen hyper).preempts, 0 ≤ x) ∧
      (execChosen s (afterRelease tasks s) chosen hyper).preempts.getD m.id 0 = 0 := by
    intro chosen hchosen
    cases hcur : s.current with
    | none =>
        rw [execChosen_preempts_none s _ chosen hyper hcur]
        exact ⟨hP, hM⟩
    | some cur =>
        rw [execChosen_preempts_some s _ chosen hyper cur hcur]
        by_cases hcond : (cur != chosen && decide (s.time < hyper)) = true
        · rw [if_pos hcond]
          have hcc : cur.task.id ≠ m.id := by
            intro hid
            -- cur is a ready job of the minimal task, so pyMin picks cur itself
            rcases hC with hnone | ⟨c, l1, l2, hcs, hsplit, hl1⟩
            · rw [hnone] at hcur; exact Option.noConfusion hcur
            · rw [hcur] at hcs
              injection hcs with hcs
              subst hcs
              have hctask : cur.task ∈ tasks := by
                apply hT
                rw [hsplit]
                exact List.mem_append.mpr (Or.inr (List.mem_cons.mpr (Or.inl rfl)))
              have hcm : cur.task = m := huniq cur.task hctask m hm hid
              have har : afterRelease tasks s = l1 ++ cur :: (l2 ++ releases tasks s.time) := by
                unfold afterRelease
                rw [hsplit, List.append_assoc, List.cons_append]
              have hsel : pyMin (afterRelease tasks s) = some cur := by
                rw [har]
                apply pyMin_of_split l1 (l2 ++ releases tasks s.time) cur hl1
                intro x hx
                have hxt : x.task ∈ tasks := by
                  rcases List.mem_append.mp hx with h | h
                  · apply hT
                    rw [hsplit]
                    exact List.mem_append.mpr (Or.inr (List.mem_cons.mpr (Or.inr h)))
                  · exact releases_task_mem h
                exact not_keyLt_min hmin hxt hcm
              rw [hchosen] at hsel
              injection hsel with hsel
              rw [hsel] at hcond
              simp at hcond
            -- contradiction closed above
          constructor
          · exact bump_nonneg s.preempts hP cur.task.id
          · rw [bump_getD_ne s.preempts cur.task.id m.id hcc]
            exact hM
        · rw [if_neg hcond]
          exact ⟨hP, hM⟩
  constructor
  · -- returned counters
    intro f p hret
    unfold simTick at hret
    dsimp only at hret
    by_cases hmiss : missFound s.time (afterRelease tasks s) = true
    · rw [if_pos hmiss] at hret
      injection hret with h1 h2
      subst h2
      exact ⟨hP, hM⟩
    · rw [if_neg hmiss] at hret
      cases hp : pyMin (afterRelease tasks s) with
      | none => rw [hp] at hret; dsimp only at hret; exact TickResult.noConfusion hret
      | some chosen =>
          rw [hp] at hret
          dsimp only at hret
          by_cases hbrk : (decide (hyper ≤ (execChosen s (afterRelease tasks s) chosen hyper).time) &&
              (execChosen s (afterRelease tasks s) chosen hyper).ready.isEmpty) = true
          · rw [if_pos hbrk] at hret
            injection hret with h1 h2
            subst h2
            exact hPstep chosen hp
          · rw [if_neg hbrk] at hret
            exact TickResult.noConfusion hret
  · -- continuing state keeps the invariant
    intro s2 hnext
    unfold simTick at hnext
    dsimp only at hnext
    by_cases hmiss : missFound s.time (afterRelease tasks s) = true
    · rw [if_pos hmiss] at hnext
      exact TickResult.noConfusion hnext
    · rw [if_neg hmiss] at hnext
      cases hp : pyMin (afterRelease tasks s) with
      | none =>
          rw [hp] at hnext
          dsimp only at hnext
          injection hnext with hnext
          have hempty : afterRelease tasks s = [] := pyMin_eq_none_iff.mp hp
          have hcurnone : s.current = none := by
            rcases hC with hnone | ⟨c, l1, l2, hcs, hsplit, _⟩
            · exact hnone
            · exfalso
              have : c ∈ afterRelease tasks s := by
                unfold afterRelease
                rw [hsplit]
                exact List.mem_append.mpr (Or.inl (List.mem_append.mpr
                  (Or.inr (List.mem_cons.mpr (Or.inl rfl)))))
              rw [hempty] at this
              exact List.not_mem_nil c this
          subst hnext
          refine ⟨?_, Or.inl hcurnone, hP, hM⟩
          intro j hj
          dsimp only at hj
          rw [hempty] at hj
          exact absurd hj (List.not_mem_nil j)
      | some chosen =>
          rw [hp] at hnext
          dsimp only at hnext
          by_cases hbrk : (decide (hyper ≤ (execChosen s (afterRelease tasks s) chosen hyper).time) &&
              (execChosen s (afterRelease tasks s) chosen hyper).ready.isEmpty) = true
          · rw [if_pos hbrk] at hnext
            exact TickResult.noConfusion hnext
          · rw [if_neg hbrk] at hnext
            injection hnext with hnext
            subst hnext
            have hcmem : chosen ∈ afterRelease tasks s := pyMin_mem hp
            have hPs := hPstep chosen hp
            by_cases hdone : chosen.remaining - 1 = 0
            · obtain ⟨hr, hc⟩ := execChosen_done s (afterRelease tasks s) chosen hyper hdone
              refine ⟨?_, Or.inl hc, hPs.1, hPs.2⟩
              intro j hj
              rw [hr] at hj
              exact hTar j (List.mem_of_mem_erase hj)
            · obtain ⟨hr, hc⟩ := execChosen_notdone s (afterRelease tasks s) chosen hyper hdone
              obtain ⟨L1, L2, hsplit, hgt⟩ := pyMin_split hp
              have hnotmem : chosen ∉ L1 := by
                intro hmem
                have := hgt chosen hmem
                rw [keyLt_irrefl] at this
                exact Bool.noConfusion this
              have hrep : (afterRelease tasks s).replace chosen
                  ⟨chosen.task, chosen.remaining - 1, chosen.deadline⟩ =
                  L1 ++ ⟨chosen.task, chosen.remaining - 1, chosen.deadline⟩ :: L2 := by
                rw [hsplit]
                exact replace_append_of_not_mem L1 chosen _ L2 hnotmem
              refine ⟨?_, ?_, hPs.1, hPs.2⟩
              · intro j hj
                rw [hr] at hj
                rcases mem_replace _ _ _ _ hj with h | h
                · exact hTar j h
                · rw [h]
                  exact hTar chosen hcmem
              · refine Or.inr ⟨⟨chosen.task, chosen.remaining - 1, chosen.deadline⟩,
                  L1, L2, hc, by rw [hr, hrep], ?_⟩
                intro x hx
                have : keyLt (⟨chosen.task, chosen.remaining - 1, chosen.deadline⟩ : Job) x =
                    keyLt chosen x := rfl
                rw [this]
                exact hgt x hx

/-- The counter facts all the way through the loop. -/
theorem simLoop_C6 : ∀ (fuel : Nat) (tasks : List Task) (m : Task)
    (hyper horizon : Nat) (s : SimState) (f : Bool) (p : List Int),
    m ∈ tasks →
    (∀ a ∈ tasks, ∀ b ∈ tasks, a.id = b.id → a = b) →
    (∀ t ∈ tasks, t ≠ m → Task.lt m t = true) →
    C6Inv tasks m s →
    simLoop tasks hyper horizon fuel s = (f, p) →
    (∀ x ∈ p, 0 ≤ x) ∧ p.getD m.id 0 = 0 := by
  intro fuel
  induction fuel with
  | zero =>
      intro tasks m hyper horizon s f p _ _ _ hinv hrun
      obtain ⟨_, _, hP, hM⟩ := hinv
      simp only [simLoop] at hrun
      injection hrun with h1 h2
      subst h2
      exact ⟨hP, hM⟩
  | succ fu ih =>
      intro tasks m hyper horizon s f p hm huniq hmin hinv hrun
      have hP := hinv.2.2.1
      have hM := hinv.2.2.2
      simp only [simLoop] at hrun
      by_cases hz : horizon ≤ s.time
      · rw [if_pos hz] at hrun
        injection hrun with h1 h2
        subst h2
        exact ⟨hP, hM⟩
      · rw [if_neg hz] at hrun
        have hstep := simTick_C6 tasks m hyper s hm huniq hmin hinv
        cases ht : simTick tasks hyper s with
        | ret fb pb =>
            rw [ht] at hrun
            dsimp only at hrun
            injection hrun with h1 h2
            subst h2
            exact hstep.1 fb pb ht
        | next s2 =>
            rw [ht] at hrun
            dsimp only at hrun
            exact ih tasks m hyper horizon s2 f p hm huniq hmin (hstep.2 s2 ht) hrun

/-! ## The schedule trace: basic lemmas -/

theorem simulate_rm_eq (t : Task) (ts : List Task) :
    simulate_rm (t :: ts) =
      some (simLoop (t :: ts) (hyperOf (t :: ts)) (horizonOf (t :: ts))
        (horizonOf (t :: ts)) (initState (t :: ts).length)) := rfl

theorem pureTick_time (tasks : List Task) (hyper : Nat) (s : SimState) :
    (pureTick tasks hyper s).time = s.time + 1 := by
  unfold pureTick
  dsimp only
  cases pyMin (afterRelease tasks s) with
  | none => rfl
  | some chosen => exact execChosen_time s _ chosen hyper

theorem pureState_zero (tasks : List Task) (hyper : Nat) :
    pureState tasks hyper 0 = initState tasks.length := rfl

theorem pureState_succ (tasks : List Task) (hyper : Nat) (k : Nat) :
    pureState tasks hyper (k + 1) =
      pureTick tasks hyper (pureState tasks hyper k) :=
  Function.iterate_succ_apply' (pureTick tasks hyper) k (initState tasks.length)

theorem pureState_time (tasks : List Task) (hyper : Nat) :
    ∀ k, (pureState tasks hyper k).time = k := by
  intro k
  induction k with
  | zero => rfl
  | succ n ih =>
      rw [pureState_succ, pureTick_time, ih]

theorem pureState_add (tasks : List Task) (hyper : Nat) (k : Nat) :
    ∀ n, pureState tasks hyper (k + n) =
      (pureTick tasks hyper)^[n] (pureState tasks hyper k) := by
  intro n
  induction n with
  | zero => rfl
  | succ m ih =>
      rw [← Nat.add_assoc, pureState_succ, ih, Function.iterate_succ_apply']

theorem missFound_iff (time : Nat) (l : List Job) :
    missFound time l = true ↔ ∃ j ∈ l, j.deadline ≤ time ∧ 0 < j.remaining := by
  unfold missFound
  rw [List.any_eq_true]
  constructor
  · rintro ⟨j, hj, hcond⟩
    rw [Bool.and_eq_true, decide_eq_true_eq, decide_eq_true_eq] at hcond
    exact ⟨j, hj, hcond⟩
  · rintro ⟨j, hj, h1, h2⟩
    refine ⟨j, hj, ?_⟩
    rw [Bool.and_eq_true, decide_eq_true_eq, decide_eq_true_eq]
    exact ⟨h1, h2⟩

theorem _lcm_eq_lcm (a b : Nat) : _lcm a b = Nat.lcm a b := rfl

theorem dvd_foldl_lcm : ∀ (ps : List Nat) (a : Nat),
    (a ∣ ps.foldl Nat.lcm a) ∧ ∀ p ∈ ps, p ∣ ps.foldl Nat.lcm a := by
  intro ps
  induction ps with
  | nil => intro a; exact ⟨dvd_refl a, by intro p hp; simp at hp⟩
  | cons q ps ih =>
      intro a
      simp only [List.foldl_cons]
      obtain ⟨h1, h2⟩ := ih (Nat.lcm a q)
      refine ⟨dvd_trans (Nat.dvd_lcm_left a q) h1, ?_⟩
      intro p hp
      rcases List.mem_cons.mp hp with h | h
      · rw [h]; exact dvd_trans (Nat.dvd_lcm_right a q) h1
      · exact h2 p h

theorem foldl_lcm_pos : ∀ (ps : List Nat) (a : Nat), 0 < a →
    (∀ p ∈ ps, 0 < p) → 0 < ps.foldl Nat.lcm a := by
  intro ps
  induction ps with
  | nil => intro a ha _; exact ha
  | cons q ps ih =>
      intro a ha hq
      simp only [List.foldl_cons]
      apply ih
      · exact Nat.pos_of_ne_zero (Nat.lcm_ne_zero (Nat.pos_iff_ne_zero.mp ha)
          (Nat.pos_iff_ne_zero.mp (hq q (List.mem_cons.mpr (Or.inl rfl)))))
      · intro p hp
        exact hq p (List.mem_cons.mpr (Or.inr hp))

/-- Every task's period divides the hyper-period. -/
theorem dvd_hyperOf {tasks : List Task} (t : Task) (ht : t ∈ tasks) :
    t.p ∣ hyperOf tasks := by
  cases tasks with
  | nil => simp at ht
  | cons t0 ts =>
      unfold hyperOf _hyper_period
      simp only [List.map_cons]
      have heq : ∀ (l : List Nat) (a : Nat), l.foldl _lcm a = l.foldl Nat.lcm a := by
        intro l
        induction l with
        | nil => intro a; rfl
        | cons x l ihl => intro a; simp only [List.foldl_cons, _lcm_eq_lcm, ihl]
      rw [heq]
      rcases List.mem_cons.mp ht with h | h
      · rw [h]
        exact (dvd_foldl_lcm (ts.map (fun tk => tk.p)) t0.p).1
      · exact (dvd_foldl_lcm (ts.map (fun tk => tk.p)) t0.p).2 t.p
          (List.mem_map.mpr ⟨t, h, rfl⟩)

theorem hyperOf_pos {tasks : List Task} (hne : tasks ≠ [])
    (hp : ∀ t ∈ tasks, 1 ≤ t.p) : 0 < hyperOf tasks := by
  cases tasks with
  | nil => exact absurd rfl hne
  | cons t0 ts =>
      unfold hyperOf _hyper_period
      simp only [List.map_cons]
      have heq : ∀ (l : List Nat) (a : Nat), l.foldl _lcm a = l.foldl Nat.lcm a := by
        intro l
        induction l with
        | nil => intro a; rfl
        | cons x l ihl => intro a; simp only [List.foldl_cons, _lcm_eq_lcm, ihl]
      rw [heq]
      apply foldl_lcm_pos
      · exact hp t0 (List.mem_cons.mpr (Or.inl rfl))
      · intro p hpm
        obtain ⟨t, ht, rfl⟩ := List.mem_map.mp hpm
        exact hp t (List.mem_cons.mpr (Or.inr ht))

/-- Releases repeat with the hyper-period: the tasks released at time
`u + hyper` are exactly those released at time `u`. -/
theorem releases_shift {tasks : List Task} {hyper : Nat}
    (hdvd : ∀ t ∈ tasks, t.p ∣ hyper) (u : Nat) :
    tasks.filter (fun t => (u + hyper) % t.p == 0) =
      tasks.filter (fun t => u % t.p == 0) := by
  apply List.filter_congr
  intro t ht
  obtain ⟨c, hc⟩ := hdvd t ht
  rw [hc, Nat.add_mul_mod_self_left]

/-! ## Well-formedness of reachable simulator states -/

/-- Structural facts about a ready list: every job belongs to a declared
task, and along the list same-task jobs have strictly increasing deadlines
(jobs are appended in release order, one release per task per tick). -/
def ReadyWF (tasks : List Task) (l : List Job) : Prop :=
  (∀ j ∈ l, j.task ∈ tasks) ∧
  l.Pairwise (fun j k => j.task.id = k.task.id → j.deadline < k.deadline)

/-- Invariant of the start-of-tick states of the schedule: the ready list
is structurally well formed, live jobs have work remaining, and deadlines
of already-released jobs lie below `time + d`. -/
def WF (tasks : List Task) (s : SimState) : Prop :=
  ReadyWF tasks s.ready ∧
  (∀ j ∈ s.ready, 1 ≤ j.remaining) ∧
  (∀ j ∈ s.ready, j.deadline < s.time + j.task.d)

theorem pairwise_mem_cases {α : Type} {R : α → α → Prop} :
    ∀ {l : List α}, l.Pairwise R → ∀ {a b : α}, a ∈ l → b ∈ l →
      a = b ∨ R a b ∨ R b a := by
  intro l
  induction l with
  | nil => intro _ a b ha; exact absurd ha (List.not_mem_nil a)
  | cons x l ih =>
      intro hp a b ha hb
      rw [List.pairwise_cons] at hp
      rcases List.mem_cons.mp ha with ha1 | ha1 <;>
        rcases List.mem_cons.mp hb with hb1 | hb1
      · exact Or.inl (ha1.trans hb1.symm)
      · subst ha1; exact Or.inr (Or.inl (hp.1 b hb1))
      · subst hb1; exact Or.inr (Or.inr (hp.1 a ha1))
      · exact ih hp.2 ha1 hb1

theorem ready_nodup {tasks : List Task} {l : List Job} (h : ReadyWF tasks l) :
    l.Nodup := by
  refine h.2.imp ?_
  intro a b hab
  intro heq
  subst heq
  exact absurd (hab rfl) (lt_irrefl _)

/-- Two ready jobs with the same task id and deadline are the same job. -/
theorem ready_eq_of_key {tasks : List Task} {l : List Job}
    (hR : ReadyWF tasks l) {a b : Job} (ha : a ∈ l) (hb : b ∈ l)
    (hid : a.task.id = b.task.id) (hdl : a.deadline = b.deadline) : a = b := by
  rcases pairwise_mem_cases hR.2 ha hb with h | h | h
  · exact h
  · exact absurd (h hid) (by omega)
  · exact absurd (h hid.symm) (by omega)

/-- Jobs with equal keys run the same task (ids are unique). -/
theorem task_eq_of_key {tasks : List Task}
    (huniq : ∀ a ∈ tasks, ∀ b ∈ tasks, a.id = b.id → a = b)
    {a b : Job} (ha : a.task ∈ tasks) (hb : b.task ∈ tasks)
    (h1 : keyLt a b = false) (h2 : keyLt b a = false) : a.task = b.task := by
  obtain ⟨_, hid⟩ := key_eq_of_not_lt h1 h2
  exact huniq a.task ha b.task hb hid

theorem afterRelease_WF {tasks : List Task} {s : SimState}
    (huniq : ∀ a ∈ tasks, ∀ b ∈ tasks, a.id = b.id → a = b)
    (hpw : tasks.Pairwise (fun a b => a.id ≠ b.id))
    (he : ∀ t ∈ tasks, 1 ≤ t.e)
    (hwf : WF tasks s) :
    ReadyWF tasks (afterRelease tasks s) ∧
    (∀ j ∈ afterRelease tasks s, 1 ≤ j.remaining) ∧
    (∀ j ∈ afterRelease tasks s, j.deadline ≤ s.time + j.task.d) := by
  obtain ⟨⟨hT, hS⟩, hPOS, hDLB⟩ := hwf
  have hTr : ∀ j ∈ releases tasks s.time, j.task ∈ tasks :=
    fun j hj => releases_task_mem hj
  refine ⟨⟨?_, ?_⟩, ?_, ?_⟩
  · intro j hj
    rcases List.mem_append.mp hj with h | h
    · exact hT j h
    · exact hTr j h
  · unfold afterRelease
    rw [List.pairwise_append]
    refine ⟨hS, ?_, ?_⟩
    · unfold releases
      rw [List.pairwise_map]
      apply List.Pairwise.imp ?_ (List.Pairwise.filter _ hpw)
      intro a b hab
      intro hid
      exact absurd hid hab
    · intro a ha b hb
      intro hid
      obtain ⟨t, ht, rfl⟩ := List.mem_map.mp hb
      have hta : a.task = t := by
        apply huniq a.task (hT a ha) t (List.mem_of_mem_filter ht)
        exact hid
      have := hDLB a ha
      rw [hta] at this
      unfold Job.make
      dsimp only
      omega
  · intro j hj
    rcases List.mem_append.mp hj with h | h
    · exact hPOS j h
    · obtain ⟨t, ht, rfl⟩ := List.mem_map.mp h
      exact he t (List.mem_of_mem_filter ht)
  · intro j hj
    rcases List.mem_append.mp hj with h | h
    · exact Nat.le_of_lt (hDLB j h)
    · obtain ⟨t, ht, rfl⟩ := List.mem_map.mp h
      unfold Job.make
      dsimp only
      omega

theorem pairwise_replace_mid {R : Job → Job → Prop} (L1 L2 : List Job)
    (c c2 : Job) (hc : ∀ x, (R c x → R c2 x) ∧ (R x c → R x c2))
    (h : (L1 ++ c :: L2).Pairwise R) : (L1 ++ c2 :: L2).Pairwise R := by
  rw [List.pairwise_append] at h ⊢
  obtain ⟨h1, h2, h3⟩ := h
  rw [List.pairwise_cons] at h2 ⊢
  refine ⟨h1, ⟨?_, h2.2⟩, ?_⟩
  · intro x hx
    exact (hc x).1 (h2.1 x hx)
  · intro a ha b hb
    rcases List.mem_cons.mp hb with hbc | hbl
    · subst hbc
      exact (hc a).2 (h3 a ha c (List.mem_cons.mpr (Or.inl rfl)))
    · exact h3 a ha b (List.mem_cons.mpr (Or.inr hbl))

theorem WF_pureTick {tasks : List Task} {hyper : Nat} {s : SimState}
    (huniq : ∀ a ∈ tasks, ∀ b ∈ tasks, a.id = b.id → a = b)
    (hpw : tasks.Pairwise (fun a b => a.id ≠ b.id))
    (he : ∀ t ∈ tasks, 1 ≤ t.e)
    (hwf : WF tasks s) : WF tasks (pureTick tasks hyper s) := by
  obtain ⟨⟨hT, hS⟩, hPOS, hDLB⟩ := afterRelease_WF huniq hpw he hwf
  unfold pureTick
  dsimp only
  cases hp : pyMin (afterRelease tasks s) with
  | none =>
      refine ⟨⟨hT, hS⟩, hPOS, ?_⟩
      intro j hj
      have := hDLB j hj
      dsimp only
      omega
  | some chosen =>
      dsimp only
      have hmem := pyMin_mem hp
      by_cases hdone : chosen.remaining - 1 = 0
      · obtain ⟨hr, _⟩ := execChosen_done s (afterRelease tasks s) chosen hyper hdone
        refine ⟨⟨?_, ?_⟩, ?_, ?_⟩
        · intro j hj
          rw [hr] at hj
          exact hT j (List.mem_of_mem_erase hj)
        · rw [hr]
          exact List.Pairwise.sublist (List.erase_sublist _ _) hS
        · intro j hj
          rw [hr] at hj
          exact hPOS j (List.mem_of_mem_erase hj)
        · intro j hj
          rw [hr] at hj
          have := hDLB j (List.mem_of_mem_erase hj)
          rw [execChosen_time]
          omega
      · obtain ⟨hr, _⟩ := execChosen_notdone s (afterRelease tasks s) chosen hyper hdone
        obtain ⟨L1, L2, hsplit, hgt⟩ := pyMin_split hp
        have hnm : chosen ∉ L1 := by
          intro hmem2
          have := hgt chosen hmem2
          rw [keyLt_irrefl] at this
          exact Bool.noConfusion this
        have hrep : (afterRelease tasks s).replace chosen
            ⟨chosen.task, chosen.remaining - 1, chosen.deadline⟩ =
            L1 ++ (⟨chosen.task, chosen.remaining - 1, chosen.deadline⟩ : Job) :: L2 := by
          rw [hsplit]
          exact replace_append_of_not_mem L1 chosen _ L2 hnm
        have harmem : ∀ j : Job, j ∈ L1 ∨ j ∈ L2 → j ∈ afterRelease tasks s := by
          intro j hj
          rw [hsplit]
          rcases hj with h | h
          · exact List.mem_append.mpr (Or.inl h)
          · exact List.mem_append.mpr (Or.inr (List.mem_cons.mpr (Or.inr h)))
        have hmem2 : ∀ j ∈ L1 ++ (⟨chosen.task, chosen.remaining - 1,
            chosen.deadline⟩ : Job) :: L2,
            j ∈ afterRelease tasks s ∨
              j = ⟨chosen.task, chosen.remaining - 1, chosen.deadline⟩ := by
          intro j hj
          rcases List.mem_append.mp hj with h | h
          · exact Or.inl (harmem j (Or.inl h))
          · rcases List.mem_cons.mp h with h | h
            · exact Or.inr h
            · exact Or.inl (harmem j (Or.inr h))
        refine ⟨⟨?_, ?_⟩, ?_, ?_⟩
        · intro j hj
          rw [hr, hrep] at hj
          rcases hmem2 j hj with h | h
          · exact hT j h
          · rw [h]
            exact hT chosen hmem
        · rw [hr, hrep]
          rw [hsplit] at hS
          exact pairwise_replace_mid L1 L2 chosen
            ⟨chosen.task, chosen.remaining - 1, chosen.deadline⟩
            (fun x => ⟨fun h => h, fun h => h⟩) hS
        · intro j hj
          rw [hr, hrep] at hj
          rcases hmem2 j hj with h | h
          · exact hPOS j h
          · rw [h]
            dsimp only
            omega
        · intro j hj
          rw [hr, hrep] at hj
          rw [execChosen_time]
          rcases hmem2 j hj with h | h
          · have := hDLB j h
            omega
          · rw [h]
            have := hDLB chosen hmem
            dsimp only
            omega

theorem pureState_WF {tasks : List Task} {hyper : Nat}
    (huniq : ∀ a ∈ tasks, ∀ b ∈ tasks, a.id = b.id → a = b)
    (hpw : tasks.Pairwise (fun a b => a.id ≠ b.id))
    (he : ∀ t ∈ tasks, 1 ≤ t.e) :
    ∀ k, WF tasks (pureState tasks hyper k) := by
  intro k
  induction k with
  | zero =>
      refine ⟨⟨?_, List.Pairwise.nil⟩, ?_, ?_⟩ <;>
        intro j hj <;> exact absurd hj (List.not_mem_nil j)
  | succ n ih =>
      rw [pureState_succ]
      exact WF_pureTick huniq hpw he ih

/-! ## Domination: a busier run delays every job at least as much -/

/-- Every job of the later window (list `a`, times shifted up by `hyper`)
has a shadow in the earlier window (list `b`): same task, deadline exactly
`hyper` earlier, and at least as much work remaining.  This is the
simulation relation behind the early-exit soundness argument. -/
def Dominates (hyper : Nat) (b a : List Job) : Prop :=
  ∀ j ∈ a, ∃ i ∈ b, i.task = j.task ∧ i.deadline + hyper = j.deadline ∧
    j.remaining ≤ i.remaining

theorem Task.lt_irrefl (t : Task) : Task.lt t t = false := by
  cases h : Task.lt t t with
  | false => rfl
  | true => exact absurd ((Task.lt_iff t t).mp h) (by omega)

/-- `pyMin` picks the earliest-released (least-deadline) ready job among
those of its own task. -/
theorem pyMin_least_deadline {tasks : List Task} {l : List Job} {c : Job}
    (hR : ReadyWF tasks l) (h : pyMin l = some c) :
    ∀ x ∈ l, x.task = c.task → c.deadline ≤ x.deadline := by
  obtain ⟨l1, l2, hsplit, hgt⟩ := pyMin_split h
  intro x hx htask
  subst hsplit
  rcases List.mem_append.mp hx with h1 | h1
  · exfalso
    have hk := hgt x h1
    rw [keyLt_eq_taskLt, htask, Task.lt_irrefl] at hk
    exact Bool.noConfusion hk
  · rcases List.mem_cons.mp h1 with h1 | h1
    · rw [h1]
    · have hp := hR.2
      rw [List.pairwise_append] at hp
      have hp2 := hp.2.1
      rw [List.pairwise_cons] at hp2
      exact Nat.le_of_lt (hp2.1 x h1 (by rw [htask]))

/-- The ready list after the execution phase, as a function of the
pre-execution ready list and the chosen job. -/
def execReady (ready : List Job) (chosen : Job) : List Job :=
  if chosen.remaining - 1 = 0 then ready.erase chosen
  else ready.replace chosen ⟨chosen.task, chosen.remaining - 1, chosen.deadline⟩

theorem execChosen_ready (s : SimState) (ready : List Job) (chosen : Job)
    (hyper : Nat) :
    (execChosen s ready chosen hyper).ready = execReady ready chosen := by
  by_cases h : chosen.remaining - 1 = 0
  · rw [(execChosen_done s ready chosen hyper h).1]
    unfold execReady
    rw [if_pos h]
  · rw [(execChosen_notdone s ready chosen hyper h).1]
    unfold execReady
    rw [if_neg h]

/-- Releasing preserves domination: the same tasks release in both windows
(periods divide the hyper-period), producing shadowed fresh jobs. -/
theorem dominates_release {tasks : List Task} {hyper : Nat} {sB sA : SimState}
    (hdvd : ∀ t ∈ tasks, t.p ∣ hyper)
    (htime : sB.time + hyper = sA.time)
    (hD : Dominates hyper sB.ready sA.ready) :
    Dominates hyper (afterRelease tasks sB) (afterRelease tasks sA) := by
  intro j hj
  rcases List.mem_append.mp hj with h | h
  · obtain ⟨i, hi, h1, h2, h3⟩ := hD j h
    exact ⟨i, List.mem_append.mpr (Or.inl hi), h1, h2, h3⟩
  · obtain ⟨t, ht, rfl⟩ := List.mem_map.mp h
    obtain ⟨htt, hcond⟩ := List.mem_filter.mp ht
    obtain ⟨c, hc⟩ := hdvd t htt
    have hcondB : (sB.time % t.p == 0) = true := by
      rw [← htime, hc, Nat.add_mul_mod_self_left] at hcond
      exact hcond
    refine ⟨Job.make t sB.time, ?_, rfl, ?_, le_refl _⟩
    · exact List.mem_append.mpr (Or.inr (List.mem_map.mpr
        ⟨t, List.mem_filter.mpr ⟨htt, hcondB⟩, rfl⟩))
    · unfold Job.make
      dsimp only
      omega

/-- A deadline miss in the later window transfers to the earlier one. -/
theorem miss_transfer {tasks : List Task} {hyper : Nat} {sB sA : SimState}
    (htime : sB.time + hyper = sA.time)
    (hDR : Dominates hyper (afterRelease tasks sB) (afterRelease tasks sA))
    (h : missFound sA.time (afterRelease tasks sA) = true) :
    missFound sB.time (afterRelease tasks sB) = true := by
  obtain ⟨j, hj, hdl, hrem⟩ := (missFound_iff _ _).mp h
  obtain ⟨i, hi, ht, hdl2, hrem2⟩ := hDR j hj
  refine (missFound_iff _ _).mpr ⟨i, hi, by omega, by omega⟩

/-- The heart of the early-exit argument: one execution step preserves
domination.  The only delicate case is the earlier (busier) run executing
the shadow of a job the later run does not execute; priority and
least-deadline selection force that job to be the later run's chosen job,
a contradiction. -/
theorem dominates_exec {tasks : List Task} {hyper : Nat} {arB arA : List Job}
    (huniq : ∀ a ∈ tasks, ∀ b ∈ tasks, a.id = b.id → a = b)
    (hRB : ReadyWF tasks arB) (hRA : ReadyWF tasks arA)
    (hDR : Dominates hyper arB arA)
    {cA cB : Job} (hpA : pyMin arA = some cA) (hpB : pyMin arB = some cB) :
    Dominates hyper (execReady arB cB) (execReady arA cA) := by
  have hmemA : cA ∈ arA := pyMin_mem hpA
  have hmemB : cB ∈ arB := pyMin_mem hpB
  have hminA := pyMin_min hpA
  have hminB := pyMin_min hpB
  have hndA : arA.Nodup := ready_nodup hRA
  have hndB : arB.Nodup := ready_nodup hRB
  obtain ⟨iA, hiA, hiAt, hiAdl, hiArem⟩ := hDR cA hmemA
  have hNoSteal : ∀ j ∈ arA, cB.task = j.task →
      cB.deadline + hyper = j.deadline → j = cA := by
    intro j hj htask hdl
    have k1 : keyLt j cA = false := hminA j hj
    have k2 : keyLt iA cB = false := hminB iA hiA
    rw [keyLt_false_iff] at k1 k2
    have hiA2 : iA.task.p = cA.task.p ∧ iA.task.id = cA.task.id := by
      rw [hiAt]; exact ⟨rfl, rfl⟩
    have hcb : cB.task.p = j.task.p ∧ cB.task.id = j.task.id := by
      rw [htask]; exact ⟨rfl, rfl⟩
    have hkey : cA.task.p = j.task.p ∧ cA.task.id = j.task.id := by omega
    have htasks : cA.task = j.task :=
      huniq cA.task (hRA.1 cA hmemA) j.task (hRA.1 j hj) hkey.2
    have hldA : cA.deadline ≤ j.deadline :=
      pyMin_least_deadline hRA hpA j hj htasks.symm
    have hldB : cB.deadline ≤ iA.deadline := by
      apply pyMin_least_deadline hRB hpB iA hiA
      rw [htask, hiAt]
      exact htasks
    have hdleq : j.deadline = cA.deadline := by omega
    exact ready_eq_of_key hRA hj hmemA (by rw [htasks]) hdleq
  have hsurvB : ∀ i ∈ arB, i ≠ cB → i ∈ execReady arB cB := by
    intro i hi hne
    unfold execReady
    by_cases hBdone : cB.remaining - 1 = 0
    · rw [if_pos hBdone]
      exact (List.Nodup.mem_erase_iff hndB).mpr ⟨hne, hi⟩
    · rw [if_neg hBdone]
      obtain ⟨M1, M2, hsplitB, hgtB⟩ := pyMin_split hpB
      have hnmB : cB ∉ M1 := by
        intro hm
        have := hgtB cB hm
        rw [keyLt_irrefl] at this
        exact Bool.noConfusion this
      rw [hsplitB, replace_append_of_not_mem M1 cB _ M2 hnmB]
      rw [hsplitB] at hi
      rcases List.mem_append.mp hi with h | h
      · exact List.mem_append.mpr (Or.inl h)
      · rcases List.mem_cons.mp h with h | h
        · exact absurd h hne
        · exact List.mem_append.mpr (Or.inr (List.mem_cons.mpr (Or.inr h)))
  have hmemA2 : ∀ j ∈ execReady arA cA,
      (j ∈ arA ∧ j ≠ cA) ∨
      (cA.remaining - 1 ≠ 0 ∧ j = ⟨cA.task, cA.remaining - 1, cA.deadline⟩) := by
    intro j hj
    unfold execReady at hj
    by_cases hAdone : cA.remaining - 1 = 0
    · rw [if_pos hAdone] at hj
      have h2 := (List.Nodup.mem_erase_iff hndA).mp hj
      exact Or.inl ⟨h2.2, h2.1⟩
    · rw [if_neg hAdone] at hj
      obtain ⟨L1, L2, hsplitA, hgtA⟩ := pyMin_split hpA
      have hnmA : cA ∉ L1 := by
        intro hm
        have := hgtA cA hm
        rw [keyLt_irrefl] at this
        exact Bool.noConfusion this
      rw [hsplitA, replace_append_of_not_mem L1 cA _ L2 hnmA] at hj
      have hndA2 := hndA
      rw [hsplitA] at hndA2
      have hcA2 : cA ∉ L2 := by
        have hnd3 := List.Nodup.of_append_right hndA2
        rw [List.nodup_cons] at hnd3
        exact hnd3.1
      rcases List.mem_append.mp hj with h | h
      · refine Or.inl ⟨?_, ?_⟩
        · rw [hsplitA]
          exact List.mem_append.mpr (Or.inl h)
        · intro he
          rw [he] at h
          exact hnmA h
      · rcases List.mem_cons.mp h with h | h
        · exact Or.inr ⟨hAdone, h⟩
        · refine Or.inl ⟨?_, ?_⟩
          · rw [hsplitA]
            exact List.mem_append.mpr (Or.inr (List.mem_cons.mpr (Or.inr h)))
          · intro he
            rw [he] at h
            exact hcA2 h
  intro j hj
  rcases hmemA2 j hj with ⟨hjar, hjne⟩ | ⟨hAnd, hjeq⟩
  · obtain ⟨i, hi, h1, h2, h3⟩ := hDR j hjar
    have hine : i ≠ cB := by
      intro he
      subst he
      exact hjne (hNoSteal j hjar h1 h2)
    exact ⟨i, hsurvB i hi hine, h1, h2, h3⟩
  · subst hjeq
    by_cases hieq : iA = cB
    · have hBrem : cB.remaining - 1 ≠ 0 := by
        rw [← hieq]
        omega
      obtain ⟨M1, M2, hsplitB, hgtB⟩ := pyMin_split hpB
      have hnmB : cB ∉ M1 := by
        intro hm
        have := hgtB cB hm
        rw [keyLt_irrefl] at this
        exact Bool.noConfusion this
      have hmm : (⟨cB.task, cB.remaining - 1, cB.deadline⟩ : Job) ∈
          execReady arB cB := by
        unfold execReady
        rw [if_neg hBrem, hsplitB, replace_append_of_not_mem M1 cB _ M2 hnmB]
        exact List.mem_append.mpr (Or.inr (List.mem_cons.mpr (Or.inl rfl)))
      refine ⟨⟨cB.task, cB.remaining - 1, cB.deadline⟩, hmm, ?_, ?_, ?_⟩
      · dsimp only
        rw [← hieq]
        exact hiAt
      · dsimp only
        rw [← hieq]
        exact hiAdl
      · dsimp only
        rw [← hieq]
        omega
    · refine ⟨iA, hsurvB iA hiA hieq, ?_, ?_, ?_⟩
      · dsimp only
        exact hiAt
      · dsimp only
        exact hiAdl
      · dsimp only
        omega

/-- One full tick (release + selection + execution) preserves domination
between two windows of the schedule offset by the hyper-period. -/
theorem dominates_tick {tasks : List Task} {hyper : Nat} {sB sA : SimState}
    (huniq : ∀ a ∈ tasks, ∀ b ∈ tasks, a.id = b.id → a = b)
    (hpw : tasks.Pairwise (fun a b => a.id ≠ b.id))
    (he : ∀ t ∈ tasks, 1 ≤ t.e)
    (hdvd : ∀ t ∈ tasks, t.p ∣ hyper)
    (htime : sB.time + hyper = sA.time)
    (hWB : WF tasks sB) (hWA : WF tasks sA)
    (hD : Dominates hyper sB.ready sA.ready) :
    Dominates hyper (pureTick tasks hyper sB).ready
      (pureTick tasks hyper sA).ready := by
  have hDR := dominates_release hdvd htime hD
  have hRB := (afterRelease_WF huniq hpw he hWB).1
  have hRA := (afterRelease_WF huniq hpw he hWA).1
  unfold pureTick
  dsimp only
  cases hpA : pyMin (afterRelease tasks sA) with
  | none =>
      intro j hj
      dsimp only at hj
      rw [pyMin_eq_none_iff.mp hpA] at hj
      exact absurd hj (List.not_mem_nil j)
  | some cA =>
      have hmemA : cA ∈ afterRelease tasks sA := pyMin_mem hpA
      obtain ⟨i0, hi0, _, _, _⟩ := hDR cA hmemA
      cases hpB : pyMin (afterRelease tasks sB) with
      | none =>
          rw [pyMin_eq_none_iff.mp hpB] at hi0
          exact absurd hi0 (List.not_mem_nil i0)
      | some cB =>
          rw [execChosen_ready, execChosen_ready]
          exact dominates_exec huniq hRB hRA hDR hpA hpB

/-- The window starting at `T` (with an empty ready set) is dominated,
tick for tick, by the window starting one hyper-period earlier. -/
theorem dominates_chain {tasks : List Task} {hyper : Nat}
    (huniq : ∀ a ∈ tasks, ∀ b ∈ tasks, a.id = b.id → a = b)
    (hpw : tasks.Pairwise (fun a b => a.id ≠ b.id))
    (he : ∀ t ∈ tasks, 1 ≤ t.e)
    (hdvd : ∀ t ∈ tasks, t.p ∣ hyper)
    {T : Nat} (hT : hyper ≤ T)
    (hE : (pureState tasks hyper T).ready = []) :
    ∀ k, Dominates hyper (pureState tasks hyper (T - hyper + k)).ready
      (pureState tasks hyper (T + k)).ready := by
  intro k
  induction k with
  | zero =>
      intro j hj
      rw [Nat.add_zero, hE] at hj
      exact absurd hj (List.not_mem_nil j)
  | succ n ih =>
      have htime : (pureState tasks hyper (T - hyper + n)).time + hyper =
          (pureState tasks hyper (T + n)).time := by
        rw [pureState_time, pureState_time]
        omega
      have hstep := dominates_tick huniq hpw he hdvd htime
        (pureState_WF huniq hpw he (T - hyper + n))
        (pureState_WF huniq hpw he (T + n)) ih
      rw [show T - hyper + (n + 1) = (T - hyper + n) + 1 from rfl, pureState_succ]
      rw [show T + (n + 1) = (T + n) + 1 from rfl, pureState_succ]
      exact hstep

/-- Consequences of the chain: the ready set is empty again one
hyper-period later, and any miss in the new window reflects into the
window before `T`. -/
theorem chain_facts {tasks : List Task} {hyper : Nat}
    (huniq : ∀ a ∈ tasks, ∀ b ∈ tasks, a.id = b.id → a = b)
    (hpw : tasks.Pairwise (fun a b => a.id ≠ b.id))
    (he : ∀ t ∈ tasks, 1 ≤ t.e)
    (hdvd : ∀ t ∈ tasks, t.p ∣ hyper)
    {T : Nat} (hT : hyper ≤ T)
    (hE : (pureState tasks hyper T).ready = []) :
    (pureState tasks hyper (T + hyper)).ready = [] ∧
    (∀ k, missAt tasks hyper (T + k) = true →
      missAt tasks hyper (T - hyper + k) = true) := by
  have chain := dominates_chain huniq hpw he hdvd hT hE
  constructor
  · have h := chain hyper
    rw [show T - hyper + hyper = T from by omega, hE] at h
    cases hl : (pureState tasks hyper (T + hyper)).ready with
    | nil => rfl
    | cons x xs =>
        exfalso
        obtain ⟨i, hi, _⟩ := h x (by rw [hl]; exact List.mem_cons.mpr (Or.inl rfl))
        exact absurd hi (List.not_mem_nil i)
  · intro k hm
    have htime : (pureState tasks hyper (T - hyper + k)).time + hyper =
        (pureState tasks hyper (T + k)).time := by
      rw [pureState_time, pureState_time]
      omega
    exact miss_transfer htime (dominates_release hdvd htime (chain k)) hm

/-- The key soundness fact behind the early exit: if the ready set is
empty at some time `T ≥ hyper` and the window `[T - hyper, T)` was
miss-free, then no tick in `[T, horizon)` misses a deadline. -/
theorem no_miss_after_empty {tasks : List Task} {hyper horizon : Nat}
    (huniq : ∀ a ∈ tasks, ∀ b ∈ tasks, a.id = b.id → a = b)
    (hpw : tasks.Pairwise (fun a b => a.id ≠ b.id))
    (he : ∀ t ∈ tasks, 1 ≤ t.e)
    (hdvd : ∀ t ∈ tasks, t.p ∣ hyper)
    (hpos : 0 < hyper) :
    ∀ (n T : Nat), horizon - T ≤ n → hyper ≤ T →
    (pureState tasks hyper T).ready = [] →
    (∀ i, T - hyper ≤ i → i < T → missAt tasks hyper i = false) →
    ∀ j, T ≤ j → j < horizon → missAt tasks hyper j = false := by
  intro n
  induction n with
  | zero =>
      intro T h0 _ _ _ j hj1 hj2
      omega
  | succ n ih =>
      intro T hn hT hE hwin j hj1 hj2
      obtain ⟨hE2, htransfer⟩ := chain_facts huniq hpw he hdvd hT hE
      have htrans : ∀ i, T ≤ i → i < T + hyper →
          missAt tasks hyper i = false := by
        intro i hi1 hi2
        cases hmi : missAt tasks hyper i with
        | false => rfl
        | true =>
            exfalso
            have heq : T + (i - T) = i := by omega
            have hm2 : missAt tasks hyper (T - hyper + (i - T)) = true := by
              apply htransfer (i - T)
              rw [heq]
              exact hmi
            have hlt : T - hyper + (i - T) < T := by omega
            have hge : T - hyper ≤ T - hyper + (i - T) := Nat.le_add_right _ _
            rw [hwin _ hge hlt] at hm2
            exact Bool.noConfusion hm2
      by_cases hcase : j < T + hyper
      · exact htrans j hj1 hcase
      · refine ih (T + hyper) (by omega) (by omega) hE2 ?_ j (by omega) hj2
        intro i hi1 hi2
        exact htrans i (by omega) (by omega)

/-! ## Correspondence between the loops and the schedule trace -/

theorem simTick_of_miss (tasks : List Task) (hyper : Nat) (s : SimState)
    (hm : missFound s.time (afterRelease tasks s) = true) :
    simTick tasks hyper s = .ret false s.preempts ∧
    simTickFull tasks hyper s = .ret false s.preempts := by
  constructor
  · unfold simTick
    dsimp only
    rw [if_pos hm]
  · unfold simTickFull
    dsimp only
    rw [if_pos hm]

theorem simTickFull_of_no_miss (tasks : List Task) (hyper : Nat) (s : SimState)
    (hm : missFound s.time (afterRelease tasks s) = false) :
    simTickFull tasks hyper s = .next (pureTick tasks hyper s) := by
  unfold simTickFull pureTick
  dsimp only
  rw [if_neg (by simp [hm])]
  cases hp : pyMin (afterRelease tasks s) <;> rfl

/-- With no miss, the real tick either takes the early exit (only when the
post-execution ready list is empty at or beyond the hyper-period) or
continues exactly like the pure transition. -/
theorem simTick_of_no_miss (tasks : List Task) (hyper : Nat) (s : SimState)
    (hm : missFound s.time (afterRelease tasks s) = false) :
    (hyper ≤ s.time + 1 ∧ (pureTick tasks hyper s).ready = [] ∧
      simTick tasks hyper s = .ret true (pureTick tasks hyper s).preempts) ∨
    simTick tasks hyper s = .next (pureTick tasks hyper s) := by
  unfold simTick pureTick
  dsimp only
  rw [if_neg (by simp [hm])]
  cases hp : pyMin (afterRelease tasks s) with
  | none => exact Or.inr rfl
  | some chosen =>
      dsimp only
      by_cases hbrk : (decide (hyper ≤ (execChosen s (afterRelease tasks s) chosen hyper).time) &&
          (execChosen s (afterRelease tasks s) chosen hyper).ready.isEmpty) = true
      · rw [if_pos hbrk]
        rw [Bool.and_eq_true, decide_eq_true_eq] at hbrk
        have h1 := hbrk.1
        rw [execChosen_time] at h1
        have h2 := hbrk.2
        refine Or.inl ⟨h1, ?_, rfl⟩
        cases hl : (execChosen s (afterRelease tasks s) chosen hyper).ready with
        | nil => rfl
        | cons x xs => rw [hl] at h2; exact Bool.noConfusion h2
      · rw [if_neg hbrk]
        exact Or.inr rfl

theorem simLoopFull_ret_true {tasks : List Task} {hyper horizon : Nat} :
    ∀ (n k : Nat), horizon - k ≤ n →
    (∀ j, k ≤ j → j < horizon → missAt tasks hyper j = false) →
    ∃ q, simLoopFull tasks hyper horizon n (pureState tasks hyper k) =
      (true, q) := by
  intro n
  induction n with
  | zero => intro k _ _; exact ⟨_, rfl⟩
  | succ n ih =>
      intro k h1 h2
      by_cases hz : horizon ≤ (pureState tasks hyper k).time
      · refine ⟨(pureState tasks hyper k).preempts, ?_⟩
        simp only [simLoopFull]
        rw [if_pos hz]
      · have hzk : k < horizon := by
          rw [pureState_time] at hz
          omega
        have hmk : missAt tasks hyper k = false := h2 k (le_refl k) hzk
        have htick := simTickFull_of_no_miss tasks hyper (pureState tasks hyper k) hmk
        obtain ⟨q, hq⟩ := ih (k + 1) (by rw [pureState_time] at hz; omega)
          (fun j hj1 hj2 => h2 j (by omega) hj2)
        refine ⟨q, ?_⟩
        simp only [simLoopFull]
        rw [if_neg hz, htick]
        dsimp only
        rw [← pureState_succ]
        exact hq

theorem simLoopFull_ret_false {tasks : List Task} {hyper horizon : Nat} :
    ∀ (n k j : Nat), k ≤ j → j < horizon → missAt tasks hyper j = true →
    (∀ i, i < j → missAt tasks hyper i = false) → horizon - k ≤ n →
    ∃ q, simLoopFull tasks hyper horizon n (pureState tasks hyper k) =
      (false, q) := by
  intro n
  induction n with
  | zero => intro k j h1 h2 _ _ h5; omega
  | succ n ih =>
      intro k j h1 h2 h3 h4 h5
      have hz : ¬ horizon ≤ (pureState tasks hyper k).time := by
        rw [pureState_time]
        omega
      by_cases hkj : k = j
      · subst hkj
        have hret := (simTick_of_miss tasks hyper (pureState tasks hyper k) h3).2
        refine ⟨(pureState tasks hyper k).preempts, ?_⟩
        simp only [simLoopFull]
        rw [if_neg hz, hret]
      · have hmk : missAt tasks hyper k = false := h4 k (by omega)
        have htick := simTickFull_of_no_miss tasks hyper (pureState tasks hyper k) hmk
        obtain ⟨q, hq⟩ := ih (k + 1) j (by omega) h2 h3 h4 (by omega)
        refine ⟨q, ?_⟩
        simp only [simLoopFull]
        rw [if_neg hz, htick]
        dsimp only
        rw [← pureState_succ]
        exact hq

theorem simLoop_ret_true {tasks : List Task} {hyper horizon : Nat} :
    ∀ (n k : Nat), horizon - k ≤ n →
    (∀ j, k ≤ j → j < horizon → missAt tasks hyper j = false) →
    ∃ q, simLoop tasks hyper horizon n (pureState tasks hyper k) = (true, q) := by
  intro n
  induction n with
  | zero => intro k _ _; exact ⟨_, rfl⟩
  | succ n ih =>
      intro k h1 h2
      by_cases hz : horizon ≤ (pureState tasks hyper k).time
      · refine ⟨(pureState tasks hyper k).preempts, ?_⟩
        simp only [simLoop]
        rw [if_pos hz]
      · have hzk : k < horizon := by
          rw [pureState_time] at hz
          omega
        have hmk : missAt tasks hyper k = false := h2 k (le_refl k) hzk
        rcases simTick_of_no_miss tasks hyper (pureState tasks hyper k) hmk with
          ⟨_, _, hret⟩ | hnext
        · refine ⟨(pureTick tasks hyper (pureState tasks hyper k)).preempts, ?_⟩
          simp only [simLoop]
          rw [if_neg hz, hret]
        · obtain ⟨q, hq⟩ := ih (k + 1) (by rw [pureState_time] at hz; omega)
            (fun j hj1 hj2 => h2 j (by omega) hj2)
          refine ⟨q, ?_⟩
          simp only [simLoop]
          rw [if_neg hz, hnext]
          dsimp only
          rw [← pureState_succ]
          exact hq

/-- If a miss occurs before the horizon (and `j` is the first one), the
real loop reports infeasible: the early exit cannot fire first, because an
empty ready list at `time ≥ hyper` would rule out all later misses. -/
theorem simLoop_ret_false {tasks : List Task} {hyper horizon : Nat}
    (huniq : ∀ a ∈ tasks, ∀ b ∈ tasks, a.id = b.id → a = b)
    (hpw : tasks.Pairwise (fun a b => a.id ≠ b.id))
    (he : ∀ t ∈ tasks, 1 ≤ t.e)
    (hdvd : ∀ t ∈ tasks, t.p ∣ hyper)
    (hpos : 0 < hyper) :
    ∀ (n k j : Nat), k ≤ j → j < horizon → missAt tasks hyper j = true →
    (∀ i, i < j → missAt tasks hyper i = false) → horizon - k ≤ n →
    ∃ q, simLoop tasks hyper horizon n (pureState tasks hyper k) =
      (false, q) := by
  intro n
  induction n with
  | zero => intro k j h1 h2 _ _ h5; omega
  | succ n ih =>
      intro k j h1 h2 h3 h4 h5
      have hz : ¬ horizon ≤ (pureState tasks hyper k).time := by
        rw [pureState_time]
        omega
      by_cases hkj : k = j
      · subst hkj
        have hret := (simTick_of_miss tasks hyper (pureState tasks hyper k) h3).1
        refine ⟨(pureState tasks hyper k).preempts, ?_⟩
        simp only [simLoop]
        rw [if_neg hz, hret]
      · have hmk : missAt tasks hyper k = false := h4 k (by omega)
        rcases simTick_of_no_miss tasks hyper (pureState tasks hyper k) hmk with
          ⟨hbr1, hbr2, _⟩ | hnext
        · exfalso
          rw [pureState_time] at hbr1
          rw [← pureState_succ] at hbr2
          have hkey := no_miss_after_empty huniq hpw he hdvd hpos
            (horizon - (k + 1)) (k + 1) (le_refl _) hbr1 hbr2
            (fun i _ hi2 => h4 i (by omega)) j (by omega) h2
          rw [h3] at hkey
          exact Bool.noConfusion hkey
        · obtain ⟨q, hq⟩ := ih (k + 1) j (by omega) h2 h3 h4 (by omega)
          refine ⟨q, ?_⟩
          simp only [simLoop]
          rw [if_neg hz, hnext]
          dsimp only
          rw [← pureState_succ]
          exact hq

theorem valid_id_inj {tasks : List Task} (hv : ValidTasks tasks) :
    ∀ a ∈ tasks, ∀ b ∈ tasks, a.id = b.id → a = b := by
  obtain ⟨_, hids, _⟩ := hv
  intro a ha b hb hab
  obtain ⟨i, hi⟩ := List.mem_iff_get.mp ha
  obtain ⟨j, hj⟩ := List.mem_iff_get.mp hb
  have h1 := hids i
  have h2 := hids j
  rw [hi] at h1
  rw [hj] at h2
  have hij : i = j := Fin.ext (by rw [← h1, ← h2, hab])
  rw [← hi, ← hj, hij]

theorem valid_pairwise_ids {tasks : List Task} (hv : ValidTasks tasks) :
    tasks.Pairwise (fun a b => a.id ≠ b.id) := by
  obtain ⟨_, hids, _⟩ := hv
  rw [List.pairwise_iff_get]
  intro i j hij
  rw [hids i, hids j]
  have hlt : i.val < j.val := hij
  omega

/-! ## Claim theorems -/

/-- C4: `Task` construction fails with the `InvalidTaskParameters` error
exactly when one of the three scaled-and-rounded tick values is `≤ 0`
(so a tiny positive input that rounds to zero is rejected), and every
successfully constructed task has strictly positive tick values. -/
theorem task_make_rejects_nonpositive (tid : Nat) (e p d : ℚ) (s : ℤ) :
    ((∃ msg, Task.make tid e p d s = .error msg) ↔
      (pyRound (e * s) ≤ 0 ∨ pyRound (p * s) ≤ 0 ∨ pyRound (d * s) ≤ 0)) ∧
    (∀ t, Task.make tid e p d s = .ok t → 0 < t.e ∧ 0 < t.p ∧ 0 < t.d) := by
  constructor
  · constructor
    · rintro ⟨msg, hmsg⟩
      by_contra hneg
      unfold Task.make at hmsg
      rw [if_neg hneg] at hmsg
      exact Except.noConfusion hmsg
    · intro h
      unfold Task.make
      rw [if_pos h]
      exact ⟨_, rfl⟩
  · intro t ht
    unfold Task.make at ht
    by_cases h : pyRound (e * s) ≤ 0 ∨ pyRound (p * s) ≤ 0 ∨ pyRound (d * s) ≤ 0
    · rw [if_pos h] at ht
      exact Except.noConfusion ht
    · rw [if_neg h] at ht
      push_neg at h
      obtain ⟨h1, h2, h3⟩ := h
      injection ht with ht
      subst ht
      refine ⟨?_, ?_, ?_⟩ <;> simp only [] <;> omega

/-- Witness for C4: `exec_time = 1/10000` scaled by 1000 rounds to zero and
is rejected; `exec_time = 1` is accepted with positive tick values. -/
theorem task_make_rejects_nonpositive_witness :
    (∃ msg, Task.make 0 (1/10000) 4 4 1000 = .error msg) ∧
    (0 < (Task.mk 0 1000 4000 4000).e ∧ 0 < (Task.mk 0 1000 4000 4000).p ∧
      0 < (Task.mk 0 1000 4000 4000).d) :=
  ⟨(task_make_rejects_nonpositive 0 (1/10000) 4 4 1000).1.mpr
      (Or.inl (le_of_eq (pyRound_eval_floor
        (by rw [Int.floor_eq_zero_iff]; constructor <;> norm_num)
        (by norm_num)))),
   (task_make_rejects_nonpositive 0 1 4 4 1000).2 _
      (Task.make_eval 0 1 4 4 1000 1000 4000 4000
        (pyRound_eval_int (by norm_num)) (pyRound_eval_int (by norm_num))
        (pyRound_eval_int (by norm_num)) (by omega))⟩

/-- C3 (counterexample): on Task0(e=1,p=4,d=4), Task1(e=2,p=6,d=6) the
simulator does NOT return `preemption_counts = [0, 1]` as the claim
states. -/
theorem scenario2_counterexample :
    simulate_rm [⟨0, 1, 4, 4⟩, ⟨1, 2, 6, 6⟩] ≠ some (true, [0, 1]) := by
  decide

/-- C3 (amended): on Task0(e=1,p=4,d=4), Task1(e=2,p=6,d=6) with scale 1
the simulator returns `feasible = true` with `preemption_counts = [0, 0]`:
Task1 finishes at time 3 and its later jobs never overlap a release of
Task0, so it is never preempted. -/
theorem scenario2_feasible_never_preempted :
    Task.make 0 1 4 4 1 = .ok ⟨0, 1, 4, 4⟩ ∧
    Task.make 1 2 6 6 1 = .ok ⟨1, 2, 6, 6⟩ ∧
    simulate_rm [⟨0, 1, 4, 4⟩, ⟨1, 2, 6, 6⟩] = some (true, [0, 0]) :=
  ⟨Task.make_eval 0 1 4 4 1 1 4 4 (pyRound_eval_int (by norm_num))
      (pyRound_eval_int (by norm_num)) (pyRound_eval_int (by norm_num)) (by omega),
   Task.make_eval 1 2 6 6 1 2 6 6 (pyRound_eval_int (by norm_num))
      (pyRound_eval_int (by norm_num)) (pyRound_eval_int (by norm_num)) (by omega),
   by decide⟩

/-- C5: the overloaded set Task0(e=3,p=4,d=4), Task1(e=3,p=5,d=5) is
reported infeasible, and the preemption counts accumulated up to the miss
(Task1 was preempted once at time 4) are returned as-is. -/
theorem scenario3_infeasible :
    Task.make 0 3 4 4 1 = .ok ⟨0, 3, 4, 4⟩ ∧
    Task.make 1 3 5 5 1 = .ok ⟨1, 3, 5, 5⟩ ∧
    simulate_rm [⟨0, 3, 4, 4⟩, ⟨1, 3, 5, 5⟩] = some (false, [0, 1]) :=
  ⟨Task.make_eval 0 3 4 4 1 3 4 4 (pyRound_eval_int (by norm_num))
      (pyRound_eval_int (by norm_num)) (pyRound_eval_int (by norm_num)) (by omega),
   Task.make_eval 1 3 5 5 1 3 5 5 (pyRound_eval_int (by norm_num))
      (pyRound_eval_int (by norm_num)) (pyRound_eval_int (by norm_num)) (by omega),
   by decide⟩

/-- C8: a tick whose post-release ready set is empty only advances the
clock: the ready list stays empty (so no job's `remaining` changes),
`current` is untouched and the preemption counters are returned
unchanged. -/
theorem idle_tick_frame (tasks : List Task) (hyper : Nat) (s : SimState)
    (h : afterRelease tasks s = []) :
    simTick tasks hyper s = .next ⟨[], s.current, s.time + 1, s.preempts⟩ := by
  unfold simTick
  rw [h]
  simp [missFound, pyMin]

/-- Witness for C8: a one-task workload at time 1 releases nothing. -/
theorem idle_tick_frame_witness :
    afterRelease [⟨0, 1, 4, 4⟩] ⟨[], none, 1, [0]⟩ = [] ∧
    simTick [⟨0, 1, 4, 4⟩] 4 ⟨[], none, 1, [0]⟩ = .next ⟨[], none, 2, [0]⟩ :=
  ⟨by decide, idle_tick_frame [⟨0, 1, 4, 4⟩] 4 ⟨[], none, 1, [0]⟩ (by decide)⟩

/-- C9: an empty record list is rejected by `load_workload` with the
empty-workload error before `simulate_rm` is ever consulted (the pipeline
propagates the error), and no successfully loaded workload is empty, so
the simulator is never invoked on an empty task list. -/
theorem empty_workload_rejected :
    load_workload [] = .error "Input file does not define any tasks." ∧
    runMain [] = .error "Input file does not define any tasks." ∧
    (∀ records tasks, load_workload records = .ok tasks → tasks ≠ []) := by
  refine ⟨rfl, rfl, ?_⟩
  intro records tasks h
  unfold load_workload at h
  cases hb : buildTasks 0 records with
  | error msg =>
      rw [hb] at h
      exact Except.noConfusion h
  | ok ts =>
      rw [hb] at h
      dsimp only at h
      by_cases he : ts.isEmpty
      · rw [if_pos he] at h
        exact Except.noConfusion h
      · rw [if_neg he] at h
        injection h with h2
        subst h2
        intro hnil
        subst hnil
        exact he rfl

theorem load_workload_single :
    load_workload [(1, 4, 4)] = .ok [⟨0, 1000, 4000, 4000⟩] := by
  have hmk : Task.make 0 1 4 4 1000 = .ok ⟨0, 1000, 4000, 4000⟩ :=
    Task.make_eval 0 1 4 4 1000 1000 4000 4000
      (pyRound_eval_int (by norm_num)) (pyRound_eval_int (by norm_num))
      (pyRound_eval_int (by norm_num)) (by omega)
  unfold load_workload buildTasks
  rw [hmk]
  rfl

/-- Witness for C9: a loaded one-record workload is non-empty. -/
theorem empty_workload_rejected_witness :
    ([⟨0, 1000, 4000, 4000⟩] : List Task) ≠ [] :=
  empty_workload_rejected.2.2 [(1, 4, 4)] [⟨0, 1000, 4000, 4000⟩] load_workload_single

/-- C10: the loop terminates within `horizon` iterations: every continuing
tick advances the clock by exactly one, any fuel at least `horizon - time`
computes the same answer as the fuel `simulate_rm` passes, and the
simulator always returns a result on a non-empty task list. -/
theorem simulate_rm_terminates :
    (∀ (tasks : List Task) (hyper : Nat) (s s2 : SimState),
      simTick tasks hyper s = TickResult.next s2 → s2.time = s.time + 1) ∧
    (∀ (tasks : List Task) (hyper horizon fuel : Nat) (s : SimState),
      horizon - s.time ≤ fuel →
      simLoop tasks hyper horizon fuel s =
        simLoop tasks hyper horizon (horizon - s.time) s) ∧
    (∀ t ts, ∃ r, simulate_rm (t :: ts) = some r) :=
  ⟨fun _ _ _ _ h => simTick_next_time h,
   fun tasks hyper horizon fuel s h =>
     simLoop_fuel_indep fuel (horizon - s.time) tasks hyper horizon s h (Nat.le_refl _),
   fun _ _ => ⟨_, rfl⟩⟩

/-- Witness for C10: extra fuel is irrelevant on a concrete workload. -/
theorem simulate_rm_terminates_witness :
    simLoop [⟨0, 1, 4, 4⟩] 4 8 100 (initState 1) =
      simLoop [⟨0, 1, 4, 4⟩] 4 8 (8 - (initState 1).time) (initState 1) :=
  simulate_rm_terminates.2.1 [⟨0, 1, 4, 4⟩] 4 8 100 (initState 1) (by decide)

/-- C6: every returned preemption counter is non-negative, and the counter
of the unique highest-priority task (the task minimal under the
`(period_ticks, id)` order) is zero: its jobs are never recorded as
preempted. -/
theorem preempts_nonneg_top_task_zero (tasks : List Task) (m : Task)
    (hv : ValidTasks tasks) (hm : m ∈ tasks)
    (hmin : ∀ t ∈ tasks, t ≠ m → Task.lt m t = true)
    (f : Bool) (p : List Int) (h : simulate_rm tasks = some (f, p)) :
    (∀ x ∈ p, 0 ≤ x) ∧ p.getD m.id 0 = 0 := by
  obtain ⟨hne, hids, _⟩ := hv
  have huniq : ∀ a ∈ tasks, ∀ b ∈ tasks, a.id = b.id → a = b := by
    intro a ha b hb hab
    obtain ⟨i, hi⟩ := List.mem_iff_get.mp ha
    obtain ⟨j, hj⟩ := List.mem_iff_get.mp hb
    have h1 := hids i
    have h2 := hids j
    rw [hi] at h1
    rw [hj] at h2
    have hij : i = j := Fin.ext (by rw [← h1, ← h2, hab])
    rw [← hi, ← hj, hij]
  have hinit : C6Inv tasks m (initState tasks.length) := by
    refine ⟨?_, Or.inl rfl, ?_, replicate_getD_zero _ _⟩
    · intro j hj
      exact absurd hj (List.not_mem_nil j)
    · intro x hx
      rw [List.eq_of_mem_replicate hx]
  cases tasks with
  | nil => exact absurd rfl hne
  | cons t ts =>
      unfold simulate_rm at h
      dsimp only at h
      injection h with h
      exact simLoop_C6 _ (t :: ts) m _ _ _ f p hm huniq hmin hinit h

/-- Witness for C6: on the scenario-3 workload the returned counters are
non-negative and Task0 (period 4, the unique highest-priority task) has
counter zero. -/
theorem preempts_nonneg_top_task_zero_witness :
    (∀ x ∈ ([0, 1] : List Int), 0 ≤ x) ∧ ([0, 1] : List Int).getD 0 0 = 0 :=
  preempts_nonneg_top_task_zero [⟨0, 3, 4, 4⟩, ⟨1, 3, 5, 5⟩] ⟨0, 3, 4, 4⟩
    (by decide) (by decide) (by decide) false [0, 1] (by decide)

/-- C7: the simulator is a pure function of the task list (two runs agree),
and job selection is fully determined by the strict RM order
`(period_ticks, id)`: `pyMin` always returns a ready job that no other
ready job beats, and whenever one job strictly beats all others it is
selected in any arrangement of the ready list. -/
theorem simulate_deterministic :
    (∀ tasks, simulate_rm tasks = simulate_rm tasks) ∧
    (∀ l c, pyMin l = some c → c ∈ l ∧ ∀ x ∈ l, keyLt x c = false) ∧
    (∀ (l1 l2 : List Job) (c : Job), l1.Perm l2 → c ∈ l1 →
      (∀ x ∈ l1, x ≠ c → keyLt c x = true) →
      pyMin l1 = some c ∧ pyMin l2 = some c) := by
  refine ⟨fun _ => rfl, fun l c h => ⟨pyMin_mem h, pyMin_min h⟩, ?_⟩
  intro l1 l2 c hperm hc h
  refine ⟨pyMin_of_unique hc h, pyMin_of_unique (hperm.mem_iff.mp hc) ?_⟩
  intro x hx hxc
  exact h x (hperm.mem_iff.mpr hx) hxc

/-- Witness for C7: the strictly smallest job is selected from both
arrangements of a two-job ready list. -/
theorem simulate_deterministic_witness :
    pyMin [⟨⟨0, 1, 4, 4⟩, 1, 4⟩, ⟨⟨1, 2, 6, 6⟩, 2, 6⟩] = some ⟨⟨0, 1, 4, 4⟩, 1, 4⟩ ∧
    pyMin [⟨⟨1, 2, 6, 6⟩, 2, 6⟩, ⟨⟨0, 1, 4, 4⟩, 1, 4⟩] = some ⟨⟨0, 1, 4, 4⟩, 1, 4⟩ :=
  simulate_deterministic.2.2
    [⟨⟨0, 1, 4, 4⟩, 1, 4⟩, ⟨⟨1, 2, 6, 6⟩, 2, 6⟩]
    [⟨⟨1, 2, 6, 6⟩, 2, 6⟩, ⟨⟨0, 1, 4, 4⟩, 1, 4⟩]
    ⟨⟨0, 1, 4, 4⟩, 1, 4⟩
    (List.Perm.swap _ _ _) (by decide) (by decide)

/-- C1: on every valid workload, `simulate_rm` reports `feasible = true`
exactly when no tick in `[0, horizon)` of the schedule finds a job past
its deadline with work remaining — and its verdict coincides with the run
to the full horizon (the early exit never changes the answer). -/
theorem simulate_rm_feasible_iff_no_miss (tasks : List Task)
    (hv : ValidTasks tasks) (f : Bool) (p : List Int)
    (h : simulate_rm tasks = some (f, p)) :
    (f = true ↔ ∀ k, k < horizonOf tasks →
      missAt tasks (hyperOf tasks) k = false) ∧
    Option.map Prod.fst (simulate_full tasks) = some f := by
  have huniq := valid_id_inj hv
  have hpw := valid_pairwise_ids hv
  obtain ⟨hne, hids, hfields⟩ := hv
  have he : ∀ t ∈ tasks, 1 ≤ t.e := fun t ht => (hfields t ht).1
  have hpp : ∀ t ∈ tasks, 1 ≤ t.p := fun t ht => (hfields t ht).2.1
  have hpos : 0 < hyperOf tasks := hyperOf_pos hne hpp
  have hdvd : ∀ t ∈ tasks, t.p ∣ hyperOf tasks := fun t ht => dvd_hyperOf t ht
  cases tasks with
  | nil => exact absurd rfl hne
  | cons t ts =>
      rw [simulate_rm_eq] at h
      injection h with h
      have hinit : initState (t :: ts).length =
          pureState (t :: ts) (hyperOf (t :: ts)) 0 := rfl
      rw [hinit] at h
      have hfull : simulate_full (t :: ts) =
          some (simLoopFull (t :: ts) (hyperOf (t :: ts)) (horizonOf (t :: ts))
            (horizonOf (t :: ts)) (pureState (t :: ts) (hyperOf (t :: ts)) 0)) := rfl
      by_cases hmiss : ∀ k, k < horizonOf (t :: ts) →
          missAt (t :: ts) (hyperOf (t :: ts)) k = false
      · obtain ⟨q, hq⟩ := simLoop_ret_true (horizonOf (t :: ts)) 0 (by omega)
          (fun j _ hj2 => hmiss j hj2)
        rw [h] at hq
        injection hq with hf _
        refine ⟨⟨fun _ => hmiss, fun _ => hf⟩, ?_⟩
        obtain ⟨q2, hq2⟩ := simLoopFull_ret_true (horizonOf (t :: ts)) 0 (by omega)
          (fun j _ hj2 => hmiss j hj2)
        rw [hfull, hq2, hf]
        rfl
      · have hk0 : ∃ k, missAt (t :: ts) (hyperOf (t :: ts)) k = true := by
          push_neg at hmiss
          obtain ⟨k0, _, hk0m⟩ := hmiss
          cases hval : missAt (t :: ts) (hyperOf (t :: ts)) k0 with
          | true => exact ⟨k0, hval⟩
          | false => exact absurd hval hk0m
        have hk0lt : ∃ k, k < horizonOf (t :: ts) ∧
            missAt (t :: ts) (hyperOf (t :: ts)) k = true := by
          push_neg at hmiss
          obtain ⟨k0, hk0z, hk0m⟩ := hmiss
          cases hval : missAt (t :: ts) (hyperOf (t :: ts)) k0 with
          | true => exact ⟨k0, hk0z, hval⟩
          | false => exact absurd hval hk0m
        obtain ⟨k0, hk0z, hk0t⟩ := hk0lt
        have hjm : missAt (t :: ts) (hyperOf (t :: ts)) (Nat.find hk0) = true :=
          Nat.find_spec hk0
        have hjmin : ∀ i, i < Nat.find hk0 →
            missAt (t :: ts) (hyperOf (t :: ts)) i = false := by
          intro i hi
          have hm := Nat.find_min hk0 hi
          cases hval : missAt (t :: ts) (hyperOf (t :: ts)) i with
          | false => rfl
          | true => exact absurd hval hm
        have hjlt : Nat.find hk0 < horizonOf (t :: ts) := by
          have := Nat.find_min' hk0 hk0t
          omega
        obtain ⟨q, hq⟩ := simLoop_ret_false huniq hpw he hdvd hpos
          (horizonOf (t :: ts)) 0 (Nat.find hk0) (Nat.zero_le _) hjlt hjm hjmin
          (by omega)
        rw [h] at hq
        injection hq with hf _
        constructor
        · constructor
          · intro ht
            rw [ht] at hf
            exact Bool.noConfusion hf.symm
          · intro hall
            have hc := hall (Nat.find hk0) hjlt
            rw [hjm] at hc
            exact Bool.noConfusion hc
        · obtain ⟨q2, hq2⟩ := simLoopFull_ret_false (horizonOf (t :: ts)) 0
            (Nat.find hk0) (Nat.zero_le _) hjlt hjm hjmin (by omega)
          rw [hfull, hq2, hf]
          rfl

/-- Witness for C1: the single task (e=1, p=4, d=4) is feasible and no
tick of its schedule misses. -/
theorem simulate_rm_feasible_iff_no_miss_witness :
    ((true : Bool) = true ↔ ∀ k, k < horizonOf [⟨0, 1, 4, 4⟩] →
      missAt [⟨0, 1, 4, 4⟩] (hyperOf [⟨0, 1, 4, 4⟩]) k = false) ∧
    Option.map Prod.fst (simulate_full [⟨0, 1, 4, 4⟩]) = some true :=
  simulate_rm_feasible_iff_no_miss [⟨0, 1, 4, 4⟩] (by decide) true [0] (by decide)

/-- C2: at a busy tick the counter of the previously executing job's task
is bumped exactly when a job was executing (`current ≠ none`), it differs
from the newly chosen job, and the clock is still inside the hyper-period;
moreover a job that completes clears `current`, so the job switch after a
completion is never counted. -/
theorem preemption_accounting (s : SimState) (ready : List Job) (chosen : Job)
    (hyper : Nat) :
    (∀ cur, s.current = some cur →
      (cur ≠ chosen → s.time < hyper →
        (execChosen s ready chosen hyper).preempts = bump s.preempts cur.task.id) ∧
      (cur = chosen ∨ hyper ≤ s.time →
        (execChosen s ready chosen hyper).preempts = s.preempts)) ∧
    (s.current = none → (execChosen s ready chosen hyper).preempts = s.preempts) ∧
    (chosen.remaining = 1 →
      (execChosen s ready chosen hyper).current = none ∧
      ∀ r2 c2, (execChosen (execChosen s ready chosen hyper) r2 c2 hyper).preempts =
        (execChosen s ready chosen hyper).preempts) := by
  refine ⟨?_, ?_, ?_⟩
  · intro cur hcur
    constructor
    · intro hne hlt
      rw [execChosen_preempts_some s ready chosen hyper cur hcur]
      rw [if_pos (by simp [bne_iff_ne, hne, hlt])]
    · intro hor
      rw [execChosen_preempts_some s ready chosen hyper cur hcur]
      rcases hor with he | hge
      · rw [if_neg (by simp [he])]
      · rw [if_neg (by simp [Nat.not_lt.mpr hge])]
  · intro hnone
    exact execChosen_preempts_none s ready chosen hyper hnone
  · intro hdone
    have hcur := execChosen_current_of_done s ready chosen hyper hdone
    refine ⟨hcur, ?_⟩
    intro r2 c2
    exact execChosen_preempts_none _ r2 c2 hyper hcur

/-- Witness for C2: a job of Task1 executing at time 4 inside the
hyper-period is displaced by the newly chosen job of Task0 and Task1's
counter is bumped. -/
theorem preemption_accounting_witness :
    (execChosen ⟨[⟨⟨0, 3, 4, 4⟩, 3, 8⟩, ⟨⟨1, 3, 5, 5⟩, 2, 5⟩], some ⟨⟨1, 3, 5, 5⟩, 2, 5⟩, 4, [0, 0]⟩
        [⟨⟨0, 3, 4, 4⟩, 3, 8⟩, ⟨⟨1, 3, 5, 5⟩, 2, 5⟩] ⟨⟨0, 3, 4, 4⟩, 3, 8⟩ 20).preempts =
      bump [0, 0] 1 :=
  ((preemption_accounting ⟨[⟨⟨0, 3, 4, 4⟩, 3, 8⟩, ⟨⟨1, 3, 5, 5⟩, 2, 5⟩], some ⟨⟨1, 3, 5, 5⟩, 2, 5⟩, 4, [0, 0]⟩
      [⟨⟨0, 3, 4, 4⟩, 3, 8⟩, ⟨⟨1, 3, 5, 5⟩, 2, 5⟩] ⟨⟨0, 3, 4, 4⟩, 3, 8⟩ 20).1
    ⟨⟨1, 3, 5, 5⟩, 2, 5⟩ rfl).1 (by decide) (by decide)

end RM
